import Mathlib

/-!
Shallow embedding of the Retrieval & Fusion Engine of the
"Enterprise-Grade RAG with PGVector Hybrid Search" repository.

Each definition mirrors one Python function of the source:

* `app/utils/rrf.py`            → `reciprocal_rank_fusion` and its helpers
* `app/services/hybrid_retriever.py` → `HybridRetriever.retrieve`
* `app/services/chunking.py`    → `chunk_document` and its helpers
* `app/services/embedding.py`   → `EmbeddingService.tokenize`, `embed` (fallback path), SHA-256
* `app/services/pgvector_store.py` → `upsert_chunks` and the row/transaction model
* `app/services/ingestion.py`   → chunk/payload production of `IngestionService.ingest`
* `app/services/orchestration.py` → `QueryOrchestrator._generate_answer` and `_fallback_answer`

Modelling conventions:

* Python floats are modelled as `ℚ` (the claims under scrutiny are about the
  algebraic structure of the scores, not about rounding).
* Python's builtin `sorted(..., reverse=True)` is a stable descending sort;
  it is modelled by the stable insertion sort `sortByDesc` below.
* Python dicts preserve insertion order; they are modelled as association
  lists where a new key is appended at the end and an existing key is
  updated in place.
* `uuid.uuid4()` guarantees that every generated id differs from all
  previously generated ids; it is modelled by drawing successive values from
  a monotone `Nat` counter that is threaded through the computation.
* Timestamps (`datetime.utcnow`) are modelled as an abstract `Nat` supplied
  by the caller.
-/

/-! ## Stable descending sort (Python `sorted(..., key=..., reverse=True)`) -/

/-- Stable descending insertion: `x` is placed before the first element whose
key is not larger than `x`'s key, so elements with equal keys keep their
original relative order (as Python's stable `sorted` does). -/
def insertByDesc {α : Type} (f : α → ℚ) (x : α) : List α → List α
  | [] => [x]
  | y :: ys => if f x ≥ f y then x :: y :: ys else y :: insertByDesc f x ys

/-- Stable descending sort by the key `f`; models Python
`sorted(l, key=f, reverse=True)`. -/
def sortByDesc {α : Type} (f : α → ℚ) : List α → List α
  | [] => []
  | x :: xs => insertByDesc f x (sortByDesc f xs)

/-! ## Reciprocal Rank Fusion (`app/utils/rrf.py`) -/

/-- `accumulator[chunk_id] += v` on a `defaultdict(float)` that preserves
insertion order: update the first matching key in place, else append. -/
def addContribution : List (String × ℚ) → String → ℚ → List (String × ℚ)
  | [], cid, v => [(cid, v)]
  | (c, s) :: rest, cid, v =>
      if c = cid then (c, s + v) :: rest else (c, s) :: addContribution rest cid v

/-- `provenance.setdefault(chunk_id, source)`: keep an existing entry,
append the new one otherwise. -/
def setDefault : List (String × String) → String → String → List (String × String)
  | [], cid, src => [(cid, src)]
  | (c, s) :: rest, cid, src =>
      if c = cid then (c, s) :: rest else (c, s) :: setDefault rest cid src

/-- The inner loop of `reciprocal_rank_fusion`: for the items of one source,
at 1-based ranks `r, r+1, ...`, add `1/(k + rank)` to the accumulator and
record provenance with `setdefault`. -/
def processItems (src : String) (k : ℚ) :
    List (String × ℚ) → Nat → List (String × ℚ) × List (String × String) →
    List (String × ℚ) × List (String × String)
  | [], _, st => st
  | (cid, _score) :: rest, r, (acc, prov) =>
      processItems src k rest (r + 1) (addContribution acc cid (1 / (k + r)), setDefault prov cid src)

/-- `reciprocal_rank_fusion(rankings, k)` from `app/utils/rrf.py`.
`rankings` is the ordered dict `source -> [(chunk_id, score), ...]`.
Returns `(chunk_id, fused_score, provenance_source)` sorted by descending
fused score (Python's `sorted` is stable). The `provenance[chunk_id]` dict
lookup cannot miss (every accumulator key was also `setdefault`-ed); the
total model uses `.getD ""` for that unreachable case. -/
def reciprocal_rank_fusion (rankings : List (String × List (String × ℚ))) (k : ℚ) :
    List (String × ℚ × String) :=
  let st := rankings.foldl (fun st sl => processItems sl.1 k sl.2 1 st) ([], [])
  sortByDesc (fun e => e.2.1)
    (st.1.map (fun cs => (cs.1, cs.2, ((st.2.find? (fun p => p.1 = cs.1)).map (fun p => p.2)).getD "")))

/-- 1-based-rank RRF contribution of one source list to `c`:
`1/(k + r)` when `c` occurs at 1-based rank `r`, `0` when the source does not
contain `c`. This is the specification-side formula the fused score is
compared against. -/
def contrib (k : ℚ) (items : List (String × ℚ)) (c : String) : ℚ :=
  match items.findIdx? (fun p => p.1 = c) with
  | some i => 1 / (k + (i + 1 : Nat))
  | none => 0

/-- Specification-side fused score of the two fixed sources, dense then
sparse: the sum of their per-source contributions. -/
def rrfScore (k : ℚ) (d s : List (String × ℚ)) (c : String) : ℚ :=
  contrib k d c + contrib k s c

/-! ## Hybrid retriever (`app/services/hybrid_retriever.py`) -/

/-- A retrieval hit as produced by `dense_search` / `_sparse_retrieval`:
`chunk_id, document_id, content, level, metadata, score`. -/
structure Hit where
  chunk_id : String
  document_id : String
  content : String
  level : String
  metadata : List (String × String)
  score : ℚ
deriving DecidableEq, Repr, Inhabited

/-- Python dict assignment `m[key] = h` on an insertion-ordered dict:
overwrite the first entry with that key in place, else append at the end. -/
def dictInsert : List (String × Hit) → String → Hit → List (String × Hit)
  | [], key, h => [(key, h)]
  | (k0, h0) :: rest, key, h =>
      if k0 = key then (k0, h) :: rest else (k0, h0) :: dictInsert rest key h

/-- `\x7bhit["chunk_id"]: hit for hit in hits\x7d`: an insertion-ordered dict
built left to right, later entries overwriting earlier ones. -/
def buildEnriched (hits : List Hit) : List (String × Hit) :=
  hits.foldl (fun m h => dictInsert m h.chunk_id h) []

/-- The dict comprehension `\x7bchunk_id: score for chunk_id, score, _ in fused\x7d`. -/
def dictInsertQ : List (String × ℚ) → String → ℚ → List (String × ℚ)
  | [], key, v => [(key, v)]
  | (k0, v0) :: rest, key, v =>
      if k0 = key then (k0, v) :: rest else (k0, v0) :: dictInsertQ rest key v

/-- The per-item body of `retrieve`'s output comprehension:
`\x7b**enriched[chunk_id], "score": fused_score\x7d`. The Python dict index
`enriched[chunk_id]` cannot miss (every fused id came from one of the two
branches); the total model returns a placeholder hit for that unreachable
case. -/
def enrichHit (enriched : List (String × Hit)) (cs : String × ℚ) : Hit :=
  match enriched.find? (fun p => p.1 = cs.1) with
  | some p => { p.2 with score := cs.2 }
  | none => { chunk_id := cs.1, document_id := "", content := "", level := "",
              metadata := [], score := cs.2 }

/-- `HybridRetriever.retrieve`, expressed as a function of the two branch
result lists `dense_hits` and `sparse_hits` (the bodies of
`_dense_retrieval` / `_sparse_retrieval` end at the store / BM25
collaborators, which produce exactly these lists). -/
def retrieve (dense_hits sparse_hits : List Hit) (rrf_k : ℚ) (top_k : Nat) : List Hit :=
  let fused := reciprocal_rank_fusion
    [("dense", dense_hits.map (fun h => (h.chunk_id, h.score))),
     ("sparse", sparse_hits.map (fun h => (h.chunk_id, h.score)))] rrf_k
  let fused_map := fused.foldl (fun m e => dictInsertQ m e.1 e.2.1) []
  let enriched := buildEnriched (dense_hits ++ sparse_hits)
  let items := fused_map.map (fun cs => enrichHit enriched cs)
  let ranked := sortByDesc (fun h => h.score) items
  ranked.take top_k

/-! ## Hierarchical chunker (`app/services/chunking.py`) -/

/-- An in-flight chunk; `chunk_id`/`parent_id` are the `Nat` values drawn
from the fresh-id counter that models `uuid.uuid4()`. -/
structure Chunk where
  chunk_id : Nat
  document_id : String
  parent_id : Option Nat
  level : String
  content : String
  metadata : List (String × String)
deriving DecidableEq, Repr

/-- Python `str.strip()` on a character list: drop leading and trailing
whitespace. (Implemented structurally; the library `String.trim` is
equivalent but does not reduce in the kernel.) -/
def pyStripList (cs : List Char) : List Char :=
  ((cs.dropWhile Char.isWhitespace).reverse.dropWhile Char.isWhitespace).reverse

/-- Python `str.strip()` on a string. -/
def pyStrip (s : String) : String := String.mk (pyStripList s.data)

/-- Python `text.split("\n")`: split at every newline, keeping empty
pieces. -/
def splitOnNl : List Char → List Char → List (List Char)
  | [], cur => [cur.reverse]
  | c :: rest, cur =>
      if c = '\n' then cur.reverse :: splitOnNl rest []
      else splitOnNl rest (c :: cur)

/-- `HierarchicalChunker._make_chunk` with the fresh id passed in explicitly:
the content is stripped, everything else is stored as given. -/
def make_chunk (id : Nat) (document_id : String) (parent_id : Option Nat)
    (level content : String) (metadata : List (String × String)) : Chunk :=
  { chunk_id := id, document_id := document_id, parent_id := parent_id,
    level := level, content := pyStrip content, metadata := metadata }

/-- `re.split(r"\n\x7b2,\x7d", text)` on the character list: split at each
maximal run of at least two newline characters, keeping the (possibly
empty) segments between the matches. Processed with a pending-newline
counter so the recursion is structural: a run of `≥ 2` newlines separates
segments, a single newline stays inside the segment. -/
def splitOnBlank : List Char → List Char → Nat → List (List Char)
  | [], cur, pend =>
      if 2 ≤ pend then [cur.reverse, []]
      else [(List.replicate pend '\n' ++ cur).reverse]
  | c :: rest, cur, pend =>
      if c = '\n' then splitOnBlank rest cur (pend + 1)
      else if 2 ≤ pend then cur.reverse :: splitOnBlank rest [c] 0
      else splitOnBlank rest (c :: (List.replicate pend '\n' ++ cur)) 0

/-- `HierarchicalChunker._extract_heading`: strip each line of the segment,
drop blank lines; the first remaining line is the heading, the rest (joined
by newlines) the body; an all-blank segment yields `("Untitled Section", "")`. -/
def extract_heading (segment : String) : String × String :=
  let lines := (((splitOnNl segment.data []).map (fun l => String.mk (pyStripList l))).filter
    (fun l => l ≠ ""))
  match lines with
  | [] => ("Untitled Section", "")
  | heading :: rest => (heading, String.intercalate "\n" rest)

/-- `HierarchicalChunker._split_sections`. -/
def split_sections (text : String) : List (String × String) :=
  (splitOnBlank text.data [] 0).map (fun seg => extract_heading (String.mk seg))

/-- The paragraph list of `_split_paragraphs`: split the body on `"\n"`,
strip each piece, keep the non-empty ones. -/
def paragraph_texts (body : String) : List String :=
  (((splitOnNl body.data []).map (fun p => String.mk (pyStripList p))).filter
    (fun p => p ≠ ""))

/-- The chunk list of `_split_paragraphs`, drawing one fresh id per
paragraph from the counter `n`; returns the chunks and the next counter. -/
def paragraph_chunks (document_id : String) (parent_id : Nat)
    (metadata : List (String × String)) : List String → Nat → List Chunk × Nat
  | [], n => ([], n)
  | p :: ps, n =>
      let rest := paragraph_chunks document_id parent_id metadata ps (n + 1)
      (make_chunk n document_id (some parent_id) "paragraph" p metadata :: rest.1, rest.2)

/-- The per-section loop of `chunk_document`: one section chunk (parented to
the title chunk) followed by its paragraph chunks, for each section. -/
def section_chunks (document_id : String) (title_id : Nat)
    (metadata : List (String × String)) : List (String × String) → Nat → List Chunk × Nat
  | [], n => ([], n)
  | (heading, body) :: rest, n =>
      let sec := make_chunk n document_id (some title_id) "section" heading metadata
      let paras := paragraph_chunks document_id n metadata (paragraph_texts body) (n + 1)
      let tail := section_chunks document_id title_id metadata rest paras.2
      (sec :: paras.1 ++ tail.1, tail.2)

/-- `HierarchicalChunker.chunk_document`, with the `uuid.uuid4()` calls
modelled by the counter `n` (ids are assigned in exactly the order the
Python code creates chunks). Returns the chunk list and the next counter. -/
def chunk_document (document_id text : String) (metadata : List (String × String))
    (n : Nat) : List Chunk × Nat :=
  if pyStrip text = "" then ([], n)
  else
    let titleContent := ((metadata.find? (fun p => p.1 = "title")).map (fun p => p.2)).getD (text.take 80)
    let title := make_chunk n document_id none "title" titleContent metadata
    let rest := section_chunks document_id n metadata (split_sections text) (n + 1)
    (title :: rest.1, rest.2)

/-! ## Tokenizer (`app/services/embedding.py`, `EmbeddingService.tokenize`) -/

/-- Python's no-argument `text.split()`: split on runs of whitespace,
dropping empty pieces (Lean's `Char.isWhitespace` covers the ASCII
whitespace the repository's documents use). -/
def splitWsAux : List Char → List Char → List (List Char)
  | [], cur => if cur.isEmpty then [] else [cur.reverse]
  | c :: rest, cur =>
      if c.isWhitespace then
        if cur.isEmpty then splitWsAux rest [] else cur.reverse :: splitWsAux rest []
      else splitWsAux rest (c :: cur)

/-- `EmbeddingService.tokenize`: `[token.lower() for token in text.split() if
token.strip()]` — split on whitespace, keep the tokens whose strip is
non-empty, lower-case each. -/
def EmbeddingService.tokenize (text : String) : List String :=
  ((splitWsAux text.data []).filter (fun t => pyStrip (String.mk t) ≠ "")).map
    (fun t => String.mk (t.map Char.toLower))

/-! ## Ingestion (`app/services/ingestion.py`) -/

/-- One table record as returned by the table-extraction collaborator
(`table_id`, `title`, `csv`). -/
structure TableData where
  table_id : String
  title : String
  csv : String
deriving DecidableEq, Repr

/-- Python dict update `m[key] = v` for string-valued metadata maps
(used for `\x7b**metadata, "document_id": document_id\x7d` and the
table-chunk metadata merge). -/
def dictInsertS : List (String × String) → String → String → List (String × String)
  | [], key, v => [(key, v)]
  | (k0, v0) :: rest, key, v =>
      if k0 = key then (k0, v) :: rest else (k0, v0) :: dictInsertS rest key v

/-- `metadata.get("document_id") or str(uuid.uuid4())`: an absent key — or a
present but empty (falsy) value — draws a fresh uuid, rendered here as
`"uuid-" ++ counter`. Returns the id and the next counter value. -/
def resolve_document_id (metadata : List (String × String)) (n : Nat) : String × Nat :=
  match metadata.find? (fun p => p.1 = "document_id") with
  | some p => if p.2 = "" then ("uuid-" ++ toString n, n + 1) else (p.2, n)
  | none => ("uuid-" ++ toString n, n + 1)

/-- The table-chunk list comprehension of `IngestionService.ingest`: one
`table`-level chunk with a fresh id per table whose `csv` is non-empty
(falsy `table.get("csv")` is skipped); content is stored unstripped,
`parent_id` is `None`. -/
def table_chunks (document_id : String) (base_metadata : List (String × String))
    (filename : String) : List TableData → Nat → List Chunk × Nat
  | [], n => ([], n)
  | t :: ts, n =>
      if t.csv = "" then table_chunks document_id base_metadata filename ts n
      else
        let md := dictInsertS (dictInsertS (dictInsertS base_metadata
          "table_id" t.table_id) "table_title" t.title) "source_file" filename
        let rest := table_chunks document_id base_metadata filename ts (n + 1)
        ({ chunk_id := n, document_id := document_id, parent_id := none,
           level := "table", content := t.csv, metadata := md } :: rest.1, rest.2)

/-- The chunk production of `IngestionService.ingest` as a function of the
parse result `(text, tables)` delivered by the table-extraction
collaborator: resolve the document id, run the chunker, append the table
chunks. The fresh-id counter is drawn in exactly the order the Python code
calls `uuid.uuid4()`. -/
def ingest_chunks (text : String) (tables : List TableData) (filename : String)
    (metadata : List (String × String)) (n : Nat) : List Chunk × Nat :=
  let docRes := resolve_document_id metadata n
  let base := dictInsertS metadata "document_id" docRes.1
  let cd := chunk_document docRes.1 text base docRes.2
  let tc := table_chunks docRes.1 base filename tables cd.2
  (cd.1 ++ tc.1, tc.2)

/-- The `sparse_tokens` field of the payload `IngestionService.ingest`
builds for one chunk: `self.embedder.tokenize(chunk.content)`. -/
def ingest_sparse_tokens (c : Chunk) : List String :=
  EmbeddingService.tokenize c.content

/-- The query tokens of `HybridRetriever._sparse_retrieval`:
`self.embedder.tokenize(query)`. -/
def sparse_query_tokens (query : String) : List String :=
  EmbeddingService.tokenize query

/-! ## Store (`app/services/pgvector_store.py`) -/

/-- One persisted row of the `document_chunks` table. -/
structure Row where
  id : String
  document_id : String
  parent_id : Option String
  level : String
  content : String
  metadata : List (String × String)
  embedding : Option (List ℚ)
  sparse_tokens : Option (List String)
  created_at : Nat
deriving DecidableEq, Repr

/-- One element of the `payloads` list handed to `upsert_chunks`
(`row.get("embedding")` / `row.get("sparse_tokens")` may be absent, hence
`Option`). -/
structure Payload where
  chunk_id : String
  document_id : String
  parent_id : Option String
  level : String
  content : String
  metadata : List (String × String)
  embedding : Option (List ℚ)
  sparse_tokens : Option (List String)
deriving DecidableEq, Repr

/-- The `INSERT ... ON CONFLICT (id) DO UPDATE` statement built per row by
`upsert_chunks`: when a row with that `id` exists, overwrite exactly
`content`, `metadata`, `embedding`, `sparse_tokens` (the `set_` clause);
otherwise insert a fresh row whose `created_at` is the column default
`datetime.utcnow`, modelled by `now`. -/
def execUpsert (db : List Row) (p : Payload) (now : Nat) : List Row :=
  if db.any (fun r => r.id = p.chunk_id) then
    db.map (fun r =>
      if r.id = p.chunk_id then
        { r with content := p.content, metadata := p.metadata,
                 embedding := p.embedding, sparse_tokens := p.sparse_tokens }
      else r)
  else
    db ++ [{ id := p.chunk_id, document_id := p.document_id, parent_id := p.parent_id,
             level := p.level, content := p.content, metadata := p.metadata,
             embedding := p.embedding, sparse_tokens := p.sparse_tokens,
             created_at := now }]

/-- The statement loop inside the session: execute each row's upsert in
order; `fails` is the failure oracle for a statement (a `StoreFailure`
raised by the database). The first failure aborts the loop. -/
def runStatements (now : Nat) (fails : Payload → Bool) :
    List Row → List Payload → Except String (List Row)
  | db, [] => .ok db
  | db, p :: ps =>
      if fails p then .error "StoreFailure"
      else runStatements now fails (execUpsert db p now) ps

/-- `PGVectorStore.upsert_chunks` under `session_scope` transaction
semantics: an empty batch returns `0` untouched; otherwise all statements
run inside one session, which commits on success (the count written is
`len(rows)`) and rolls back on any failure, leaving the visible store
unchanged while the exception propagates. Returns the call's outcome and
the visible store state afterward. -/
def upsert_chunks (db : List Row) (rows : List Payload) (now : Nat)
    (fails : Payload → Bool) : Except String Nat × List Row :=
  if rows.isEmpty then (.ok 0, db)
  else
    match runStatements now fails db rows with
    | .ok db2 => (.ok rows.length, db2)
    | .error e => (.error e, db)

/-! ## SHA-256 and the fallback embedding (`app/services/embedding.py`)

`hashlib.sha256` is embedded as the standard SHA-256 algorithm (FIPS 180-4)
over byte lists, with 32-bit words carried as `Nat` reduced modulo `2^32`. -/

/-- 32-bit right rotation. -/
def rotr32 (n x : Nat) : Nat :=
  ((x >>> n) ||| (x <<< (32 - n))) % 4294967296

/-- SHA-256 `Ch`. -/
def sha256Ch (x y z : Nat) : Nat := (x &&& y) ^^^ ((x ^^^ 4294967295) &&& z)

/-- SHA-256 `Maj`. -/
def sha256Maj (x y z : Nat) : Nat := (x &&& y) ^^^ (x &&& z) ^^^ (y &&& z)

/-- SHA-256 `Σ₀`. -/
def bigSigma0 (x : Nat) : Nat := rotr32 2 x ^^^ rotr32 13 x ^^^ rotr32 22 x

/-- SHA-256 `Σ₁`. -/
def bigSigma1 (x : Nat) : Nat := rotr32 6 x ^^^ rotr32 11 x ^^^ rotr32 25 x

/-- SHA-256 `σ₀`. -/
def smallSigma0 (x : Nat) : Nat := rotr32 7 x ^^^ rotr32 18 x ^^^ (x >>> 3)

/-- SHA-256 `σ₁`. -/
def smallSigma1 (x : Nat) : Nat := rotr32 17 x ^^^ rotr32 19 x ^^^ (x >>> 10)

/-- The 64 SHA-256 round constants. -/
def sha256K : List Nat :=
  [1116352408, 1899447441, 3049323471, 3921009573, 961987163, 1508970993,
   2453635748, 2870763221, 3624381080, 310598401, 607225278, 1426881987,
   1925078388, 2162078206, 2614888103, 3248222580, 3835390401, 4022224774,
   264347078, 604807628, 770255983, 1249150122, 1555081692, 1996064986,
   2554220882, 2821834349, 2952996808, 3210313671, 3336571891, 3584528711,
   113926993, 338241895, 666307205, 773529912, 1294757372, 1396182291,
   1695183700, 1986661051, 2177026350, 2456956037, 2730485921, 2820302411,
   3259730800, 3345764771, 3516065817, 3600352804, 4094571909, 275423344,
   430227734, 506948616, 659060556, 883997877, 958139571, 1322822218,
   1537002063, 1747873779, 1955562222, 2024104815, 2227730452, 2361852424,
   2428436474, 2756734187, 3204031479, 3329325298]

/-- The SHA-256 initial hash value. -/
def sha256H0 : List Nat :=
  [1779033703, 3144134277, 1013904242, 2773480762,
   1359893119, 2600822924, 528734635, 1541459225]

/-- `w` bytes of `x`, big-endian. -/
def bytesBE : Nat → Nat → List Nat
  | 0, _ => []
  | w + 1, x => ((x >>> (8 * w)) % 256) :: bytesBE w x

/-- SHA-256 padding: append `0x80`, zero bytes to reach 56 mod 64, then the
64-bit big-endian bit length. -/
def sha256Pad (msg : List Nat) : List Nat :=
  let L := msg.length
  let z := (120 - ((L + 1) % 64)) % 64
  msg ++ [0x80] ++ List.replicate z 0 ++ bytesBE 8 (8 * L)

/-- Big-endian 32-bit words of a byte list. -/
def toWords : List Nat → List Nat
  | b0 :: b1 :: b2 :: b3 :: rest =>
      ((b0 <<< 24) ||| (b1 <<< 16) ||| (b2 <<< 8) ||| b3) :: toWords rest
  | _ => []

/-- Extend a 16-word message schedule by `t` further words. -/
def extendW (w : List Nat) : Nat → List Nat
  | 0 => w
  | t + 1 =>
      let m := w.length
      let next := (smallSigma1 (w.getD (m - 2) 0) + w.getD (m - 7) 0 +
                   smallSigma0 (w.getD (m - 15) 0) + w.getD (m - 16) 0) % 4294967296
      extendW (w ++ [next]) t

/-- The eight SHA-256 working variables. -/
structure H8 where
  a : Nat
  b : Nat
  c : Nat
  d : Nat
  e : Nat
  f : Nat
  g : Nat
  hh : Nat
deriving Repr

/-- One SHA-256 compression round. -/
def sha256Round (s : H8) (ki wi : Nat) : H8 :=
  let t1 := (s.hh + bigSigma1 s.e + sha256Ch s.e s.f s.g + ki + wi) % 4294967296
  let t2 := (bigSigma0 s.a + sha256Maj s.a s.b s.c) % 4294967296
  { a := (t1 + t2) % 4294967296, b := s.a, c := s.b, d := s.c,
    e := (s.d + t1) % 4294967296, f := s.e, g := s.f, hh := s.g }

/-- Compress one 64-byte block into the running hash (eight words). -/
def compressBlock (hs : List Nat) (block : List Nat) : List Nat :=
  let w := extendW (toWords block) 48
  let s0 : H8 := { a := hs.getD 0 0, b := hs.getD 1 0, c := hs.getD 2 0, d := hs.getD 3 0,
                   e := hs.getD 4 0, f := hs.getD 5 0, g := hs.getD 6 0, hh := hs.getD 7 0 }
  let sf := (sha256K.zip w).foldl (fun s kw => sha256Round s kw.1 kw.2) s0
  [(hs.getD 0 0 + sf.a) % 4294967296, (hs.getD 1 0 + sf.b) % 4294967296,
   (hs.getD 2 0 + sf.c) % 4294967296, (hs.getD 3 0 + sf.d) % 4294967296,
   (hs.getD 4 0 + sf.e) % 4294967296, (hs.getD 5 0 + sf.f) % 4294967296,
   (hs.getD 6 0 + sf.g) % 4294967296, (hs.getD 7 0 + sf.hh) % 4294967296]

/-- Split off the first `n` elements (structural `take`/`drop` pair). -/
def splitAtN : Nat → List Nat → List Nat × List Nat
  | 0, l => ([], l)
  | _ + 1, [] => ([], [])
  | n + 1, b :: rest =>
      let r := splitAtN n rest
      (b :: r.1, r.2)

/-- Split a byte list into 64-byte blocks, with a fuel argument making the
recursion structural (`fuel = l.length` always suffices). -/
def blocksAux : Nat → List Nat → List (List Nat)
  | 0, _ => []
  | fuel + 1, l =>
      if l.isEmpty then []
      else
        let sp := splitAtN 64 l
        sp.1 :: blocksAux fuel sp.2

/-- Split a byte list into 64-byte blocks. -/
def blocks64 (l : List Nat) : List (List Nat) := blocksAux l.length l

/-- SHA-256 of a byte list: the 32-byte digest. -/
def sha256 (msg : List Nat) : List Nat :=
  (((blocks64 (sha256Pad msg)).foldl compressBlock sha256H0).map (bytesBE 4)).flatten

/-- UTF-8 encoding of one character (`text.encode("utf-8")`). -/
def utf8Char (c : Char) : List Nat :=
  let n := c.toNat
  if n < 128 then [n]
  else if n < 2048 then [192 ||| (n >>> 6), 128 ||| (n &&& 63)]
  else if n < 65536 then
    [224 ||| (n >>> 12), 128 ||| ((n >>> 6) &&& 63), 128 ||| (n &&& 63)]
  else
    [240 ||| (n >>> 18), 128 ||| ((n >>> 12) &&& 63), 128 ||| ((n >>> 6) &&& 63), 128 ||| (n &&& 63)]

/-- UTF-8 bytes of a string. -/
def utf8Bytes (s : String) : List Nat := (s.data.map utf8Char).flatten

/-- `EmbeddingService._fallback_embedding(text, dim)`: repeat the SHA-256
digest of the UTF-8 text `dim // len(digest) + 1` times, truncate to `dim`
bytes, and map each byte `b` to `b / 255.0`. -/
def fallback_embedding (text : String) (dim : Nat) : List ℚ :=
  let digest := sha256 (utf8Bytes text)
  let repeated := ((List.replicate (dim / digest.length + 1) digest).flatten).take dim
  repeated.map (fun b : Nat => (b : ℚ) / 255)

/-- `EmbeddingService.embed` on the fallback path (`self.model` is `None`):
each text maps to its hash-derived 768-dimensional vector. -/
def embedFallback (texts : List String) : List (List ℚ) :=
  texts.map (fun t => fallback_embedding t 768)

/-! ## Answer orchestrator (`app/services/orchestration.py`) -/

/-- Stand-in rendering of a score for the context block (Python formats the
float with `:.4f`; floating-point rendering is not modelled exactly and no
claim depends on it). -/
def formatScore (q : ℚ) : String := toString q.num ++ "/" ++ toString q.den

/-- `QueryOrchestrator._format_context`. -/
def format_context (hits : List Hit) : String :=
  String.intercalate "\n\n" (hits.map (fun h =>
    "[" ++ h.chunk_id ++ "] doc=" ++ h.document_id ++ " level=" ++ h.level ++
    " score=" ++ formatScore h.score ++ "\n" ++ h.content))

/-- `QueryOrchestrator._fallback_answer`: echo the question and the first
hit's `chunk_id` and `content`. (Python would raise `IndexError` on an empty
hit list; `_generate_answer` only calls it with a non-empty one — the total
model returns `""` in that unreachable case.) -/
def fallback_answer (hits : List Hit) (question : String) : String :=
  match hits with
  | [] => ""
  | best :: _ =>
      "Answer synthesized without LLM due to configuration limits.\n" ++
      "Question: " ++ question ++ "\n" ++
      "Best match (" ++ best.chunk_id ++ "): " ++ best.content

/-- `QueryOrchestrator._generate_answer`: the generation chain is `none`
when no LLM is configured; when present it may fail (`Except.error`, the
caught `chain.invoke` exception), in which case — as when it is absent —
the extractive fallback answers. -/
def generate_answer (chain : Option (String → String → Except String String))
    (question : String) (hits : List Hit) : String :=
  match hits with
  | [] => "No relevant answer found."
  | _ =>
      match chain with
      | some f =>
          match f question (format_context hits) with
          | .ok t => t
          | .error _ => fallback_answer hits question
      | none => fallback_answer hits question

/-! ## Specification-side helpers used by the theorem statements -/

/-- The fused score recorded in an accumulator association list for `c`
(`0` when absent — the `defaultdict(float)` default). -/
def scoreOf (acc : List (String × ℚ)) (c : String) : ℚ :=
  ((acc.find? (fun p => p.1 = c)).map (fun p => p.2)).getD 0

/-- The provenance recorded for `c`, if any. -/
def provOf (prov : List (String × String)) (c : String) : Option String :=
  (prov.find? (fun p => p.1 = c)).map (fun p => p.2)

/-- First-occurrence order of chunk ids across the two branches: the dense
ids in their list order, then the sparse-only ids in sparse list order. -/
def firstOccOrder (dk sk : List String) : List String :=
  dk ++ sk.filter (fun c => decide (c ∉ dk))

/-- The concrete chunker input of the spec's "Chunker structure" property. -/
def c2text : String := "Title\n\nHeading1\nline1\nline2\n\nHeading2\nline3"

/-- A concrete dense-branch hit used to witness the retriever theorems. -/
def c4dhit : Hit :=
  { chunk_id := "c1", document_id := "d1", content := "A", level := "paragraph",
    metadata := [], score := 9 }

/-- A concrete sparse-branch hit sharing `chunk_id` `"c1"` with `c4dhit` but
differing in every display attribute. -/
def c4shit : Hit :=
  { chunk_id := "c1", document_id := "d2", content := "B", level := "section",
    metadata := [("k", "v")], score := 5 }

/-- A concrete dense-branch hit list used to witness the retriever theorems. -/
def c4dense : List Hit := [c4dhit]

/-- A concrete sparse-branch hit list used to witness the retriever theorems. -/
def c4sparse : List Hit := [c4shit]

/-- The hit `retrieve c4dense c4sparse 60 8` returns: sparse display
attributes, fused score `1/61 + 1/61`. -/
def c4fused : Hit :=
  { chunk_id := "c1", document_id := "d2", content := "B", level := "section",
    metadata := [("k", "v")], score := 2 / 61 }

/-- A concrete pre-existing store row used to witness the store theorems. -/
def c5row : Row :=
  { id := "chunk-1", document_id := "doc-1", parent_id := none, level := "paragraph",
    content := "old content", metadata := [("a", "1")], embedding := none,
    sparse_tokens := some ["old"], created_at := 3 }

/-- A concrete conflicting payload used to witness the store theorems. -/
def c5payload : Payload :=
  { chunk_id := "chunk-1", document_id := "doc-other", parent_id := some "p",
    level := "section", content := "new content", metadata := [("b", "2")],
    embedding := none, sparse_tokens := some ["new"] }

/-- A concrete store used to witness the store theorems. -/
def c5db : List Row := [c5row]

/-- A concrete two-payload batch used to witness the atomicity theorem. -/
def c6rows : List Payload :=
  [c5payload,
   { chunk_id := "chunk-2", document_id := "doc-1", parent_id := none,
     level := "paragraph", content := "fresh", metadata := [], embedding := none,
     sparse_tokens := none }]

/-- A concrete dense ranking used to witness the RRF theorems. -/
def c3dense : List (String × ℚ) := [("a", 9), ("b", 8)]

/-- A concrete sparse ranking used to witness the RRF theorems. -/
def c3sparse : List (String × ℚ) := [("b", 5), ("c", 4)]

/-! # Theorems

## Stable descending sort -/

theorem insertByDesc_perm {α : Type} (f : α → ℚ) (x : α) (l : List α) :
    (insertByDesc f x l).Perm (x :: l) := by
  induction l with
  | nil => simp [insertByDesc]
  | cons y ys ih =>
      simp only [insertByDesc]
      split
      · exact List.Perm.refl _
      · exact (ih.cons y).trans (List.Perm.swap x y ys)

theorem sortByDesc_perm {α : Type} (f : α → ℚ) (l : List α) :
    (sortByDesc f l).Perm l := by
  induction l with
  | nil => simp [sortByDesc]
  | cons x xs ih =>
      exact (insertByDesc_perm f x (sortByDesc f xs)).trans (ih.cons x)

theorem mem_insertByDesc {α : Type} {f : α → ℚ} {x z : α} {l : List α} :
    z ∈ insertByDesc f x l ↔ z = x ∨ z ∈ l := by
  rw [(insertByDesc_perm f x l).mem_iff, List.mem_cons]

theorem pairwise_insertByDesc {α : Type} {f : α → ℚ} {x : α} {l : List α}
    (hl : l.Pairwise (fun a b => f b ≤ f a)) :
    (insertByDesc f x l).Pairwise (fun a b => f b ≤ f a) := by
  induction l with
  | nil => simp [insertByDesc]
  | cons y ys ih =>
      rw [List.pairwise_cons] at hl
      simp only [insertByDesc]
      split
      · rename_i hxy
        rw [List.pairwise_cons]
        refine ⟨?_, List.pairwise_cons.mpr hl⟩
        intro z hz
        rcases List.mem_cons.mp hz with h | h
        · exact h ▸ hxy
        · exact le_trans (hl.1 z h) hxy
      · rename_i hxy
        rw [List.pairwise_cons]
        refine ⟨?_, ih hl.2⟩
        intro z hz
        rcases mem_insertByDesc.mp hz with h | h
        · exact h ▸ le_of_lt (lt_of_not_le hxy)
        · exact hl.1 z h

theorem sortByDesc_pairwise {α : Type} (f : α → ℚ) (l : List α) :
    (sortByDesc f l).Pairwise (fun a b => f b ≤ f a) := by
  induction l with
  | nil => simp [sortByDesc]
  | cons x xs ih => exact pairwise_insertByDesc ih

theorem filter_insertByDesc {α : Type} (f : α → ℚ) (x : α) (l : List α) (s : ℚ) :
    (insertByDesc f x l).filter (fun a => decide (f a = s)) =
      if f x = s then x :: l.filter (fun a => decide (f a = s))
      else l.filter (fun a => decide (f a = s)) := by
  induction l with
  | nil =>
      by_cases h : f x = s <;> simp [insertByDesc, List.filter, h]
  | cons y ys ih =>
      simp only [insertByDesc]
      split
      · rename_i hxy
        by_cases h : f x = s <;> simp [List.filter_cons, h]
      · rename_i hxy
        have hyx : f x < f y := lt_of_not_le hxy
        by_cases h : f x = s
        · have hy : ¬ f y = s := by
            intro hys
            rw [h, hys] at hyx
            exact lt_irrefl s hyx
          simp [List.filter_cons, h, hy, ih]
        · by_cases hy : f y = s <;> simp [List.filter_cons, h, hy, ih]

theorem sortByDesc_filter {α : Type} (f : α → ℚ) (l : List α) (s : ℚ) :
    (sortByDesc f l).filter (fun a => decide (f a = s)) =
      l.filter (fun a => decide (f a = s)) := by
  induction l with
  | nil => simp [sortByDesc]
  | cons x xs ih =>
      simp only [sortByDesc]
      rw [filter_insertByDesc]
      by_cases h : f x = s <;> simp [List.filter_cons, h, ih]

theorem sortByDesc_eq_of_sorted {α : Type} {f : α → ℚ} {l : List α}
    (hl : l.Pairwise (fun a b => f b ≤ f a)) : sortByDesc f l = l := by
  induction l with
  | nil => rfl
  | cons x xs ih =>
      rw [List.pairwise_cons] at hl
      simp only [sortByDesc, ih hl.2]
      cases xs with
      | nil => rfl
      | cons y ys =>
          simp only [insertByDesc]
          rw [if_pos (hl.1 y (List.mem_cons_self y ys))]

/-! ## RRF accumulator lemmas -/

theorem scoreOf_cons (c0 : String) (v0 : ℚ) (tl : List (String × ℚ)) (x : String) :
    scoreOf ((c0, v0) :: tl) x = if c0 = x then v0 else scoreOf tl x := by
  by_cases h : c0 = x
  · rw [scoreOf, List.find?_cons_of_pos _ (by simpa using h), if_pos h]
    rfl
  · rw [scoreOf, List.find?_cons_of_neg _ (by simpa using h), if_neg h]
    rfl

theorem provOf_cons (c0 s0 : String) (tl : List (String × String)) (x : String) :
    provOf ((c0, s0) :: tl) x = if c0 = x then some s0 else provOf tl x := by
  by_cases h : c0 = x
  · rw [provOf, List.find?_cons_of_pos _ (by simpa using h), if_pos h]
    rfl
  · rw [provOf, List.find?_cons_of_neg _ (by simpa using h), if_neg h]
    rfl

theorem scoreOf_addContribution (acc : List (String × ℚ)) (cid : String) (v : ℚ) (x : String) :
    scoreOf (addContribution acc cid v) x = scoreOf acc x + if x = cid then v else 0 := by
  induction acc with
  | nil =>
      by_cases h : x = cid
      · subst h; simp [addContribution, scoreOf_cons, scoreOf]
      · have h2 : ¬ cid = x := fun h3 => h (Eq.symm h3)
        simp [addContribution, scoreOf_cons, scoreOf, h, h2]
  | cons hd tl ih =>
      obtain ⟨c0, v0⟩ := hd
      by_cases h1 : c0 = cid
      · subst h1
        by_cases h2 : c0 = x
        · subst h2
          simp [addContribution, scoreOf_cons]
        · have h2x : ¬ x = c0 := fun h3 => h2 (Eq.symm h3)
          simp [addContribution, scoreOf_cons, h2, h2x]
      · by_cases h2 : c0 = x
        · subst h2
          have hxc : ¬ c0 = cid := h1
          simp [addContribution, scoreOf_cons, h1, hxc]
        · simp [addContribution, scoreOf_cons, h1, h2, ih]

theorem keys_addContribution (acc : List (String × ℚ)) (cid : String) (v : ℚ) :
    (addContribution acc cid v).map Prod.fst =
      if cid ∈ acc.map Prod.fst then acc.map Prod.fst else acc.map Prod.fst ++ [cid] := by
  induction acc with
  | nil => simp [addContribution]
  | cons hd tl ih =>
      obtain ⟨c0, v0⟩ := hd
      by_cases h1 : c0 = cid
      · subst h1; simp [addContribution]
      · have h2 : ¬ cid = c0 := fun h => h1 (Eq.symm h)
        simp only [addContribution, if_neg h1, List.map_cons, ih, List.mem_cons, h2,
          false_or]
        by_cases h3 : cid ∈ tl.map Prod.fst <;> simp [h3]

theorem provOf_setDefault (prov : List (String × String)) (cid src x : String) :
    provOf (setDefault prov cid src) x =
      match provOf prov x with
      | some s0 => some s0
      | none => if x = cid then some src else none := by
  induction prov with
  | nil =>
      by_cases h : x = cid
      · subst h; simp [setDefault, provOf_cons, provOf]
      · have h2 : ¬ cid = x := fun h3 => h (Eq.symm h3)
        simp [setDefault, provOf_cons, provOf, h, h2]
  | cons hd tl ih =>
      obtain ⟨c0, s0⟩ := hd
      by_cases h1 : c0 = cid
      · subst h1
        by_cases h2 : c0 = x
        · subst h2
          simp [setDefault, provOf_cons]
        · have h2x : ¬ x = c0 := fun h3 => h2 (Eq.symm h3)
          simp [setDefault, provOf_cons, h2, h2x]
          cases provOf tl x with
          | some s1 => rfl
          | none => simp [h2x]
      · by_cases h2 : c0 = x
        · subst h2
          simp [setDefault, provOf_cons, h1]
        · simp [setDefault, provOf_cons, h1, h2, ih]

theorem scoreOf_processItems (src : String) (k : ℚ) (items : List (String × ℚ)) (x : String)
    (hnd : (items.map Prod.fst).Nodup) :
    ∀ (r : Nat) (acc : List (String × ℚ)) (prov : List (String × String)),
    scoreOf (processItems src k items r (acc, prov)).1 x =
      scoreOf acc x +
        match items.findIdx? (fun p => p.1 = x) with
        | some i => 1 / (k + ((r + i : Nat) : ℚ))
        | none => 0 := by
  induction items with
  | nil =>
      intro r acc prov
      simp [processItems]
  | cons hd tl ih =>
      obtain ⟨cid, sc⟩ := hd
      simp only [List.map_cons, List.nodup_cons] at hnd
      intro r acc prov
      simp only [processItems]
      rw [ih hnd.2 (r + 1), scoreOf_addContribution]
      by_cases h : x = cid
      · subst h
        have hnone : tl.findIdx? (fun p => p.1 = x) = none := by
          rw [List.findIdx?_eq_none_iff]
          intro p hp
          simp only [decide_eq_false_iff_not]
          exact fun hpx => hnd.1 (hpx ▸ List.mem_map_of_mem Prod.fst hp)
        rw [hnone, List.findIdx?_cons]
        rw [if_pos (by simp)]
        simp
      · have hq : ¬ cid = x := fun h3 => h (Eq.symm h3)
        rw [if_neg h, List.findIdx?_cons, if_neg (by simp [hq]), List.findIdx?_start_succ]
        cases hfi : tl.findIdx? (fun p => p.1 = x) with
        | none => simp
        | some i =>
            simp only [Option.map_some']
            push_cast
            ring_nf

theorem provOf_processItems (src : String) (k : ℚ) (items : List (String × ℚ)) (x : String) :
    ∀ (r : Nat) (acc : List (String × ℚ)) (prov : List (String × String)),
    provOf (processItems src k items r (acc, prov)).2 x =
      match provOf prov x with
      | some s0 => some s0
      | none => if x ∈ items.map Prod.fst then some src else none := by
  induction items with
  | nil =>
      intro r acc prov
      simp only [processItems]
      cases hpv : provOf prov x <;> simp [hpv]
  | cons hd tl ih =>
      obtain ⟨cid, sc⟩ := hd
      intro r acc prov
      simp only [processItems]
      rw [ih (r + 1), provOf_setDefault]
      by_cases h : x = cid
      · subst h
        cases hpv : provOf prov x <;> simp [hpv]
      · cases hpv : provOf prov x with
        | some s0 => simp [hpv]
        | none =>
            simp only [hpv]
            by_cases hm : x ∈ List.map Prod.fst tl
            · simp [List.mem_cons, hm, h]
            · simp [List.mem_cons, hm, h]

theorem keys_processItems (src : String) (k : ℚ) (items : List (String × ℚ))
    (hnd : (items.map Prod.fst).Nodup) :
    ∀ (r : Nat) (acc : List (String × ℚ)) (prov : List (String × String)),
    (processItems src k items r (acc, prov)).1.map Prod.fst =
      acc.map Prod.fst ++
        (items.map Prod.fst).filter (fun c => decide (c ∉ acc.map Prod.fst)) := by
  induction items with
  | nil =>
      intro r acc prov
      simp [processItems]
  | cons hd tl ih =>
      obtain ⟨cid, sc⟩ := hd
      simp only [List.map_cons, List.nodup_cons] at hnd
      intro r acc prov
      simp only [processItems]
      rw [ih hnd.2 (r + 1), keys_addContribution]
      by_cases h : cid ∈ acc.map Prod.fst
      · rw [if_pos h]
        simp only [List.map_cons, List.filter_cons]
        rw [if_neg (by simpa using h)]
      · rw [if_neg h]
        simp only [List.map_cons, List.filter_cons]
        rw [if_pos (by simpa using h)]
        have hfc : (tl.map Prod.fst).filter
              (fun c => decide (c ∉ acc.map Prod.fst ++ [cid])) =
            (tl.map Prod.fst).filter (fun c => decide (c ∉ acc.map Prod.fst)) := by
          apply List.filter_congr
          intro c hc
          have hcne : c ≠ cid := fun hceq => hnd.1 (hceq ▸ hc)
          simp [List.mem_append, hcne]
        rw [hfc]
        simp

theorem nodup_keys_processItems (src : String) (k : ℚ) (items : List (String × ℚ))
    (hnd : (items.map Prod.fst).Nodup) (r : Nat) (acc : List (String × ℚ))
    (prov : List (String × String)) (hacc : (acc.map Prod.fst).Nodup) :
    ((processItems src k items r (acc, prov)).1.map Prod.fst).Nodup := by
  rw [keys_processItems src k items hnd r acc prov]
  refine List.Nodup.append hacc (hnd.filter _) ?_
  intro a ha hb
  have := List.of_mem_filter hb
  simp only [decide_eq_true_eq] at this
  exact this ha

theorem scoreOf_eq_of_mem (acc : List (String × ℚ)) (hnd : (acc.map Prod.fst).Nodup)
    (c : String) (v : ℚ) (hmem : (c, v) ∈ acc) : scoreOf acc c = v := by
  induction acc with
  | nil => cases hmem
  | cons hd tl ih =>
      obtain ⟨c0, v0⟩ := hd
      simp only [List.map_cons, List.nodup_cons] at hnd
      rcases List.mem_cons.mp hmem with heq | hmem2
      · have h1 : c = c0 := congrArg Prod.fst heq
        have h2 : v = v0 := congrArg Prod.snd heq
        rw [scoreOf_cons, if_pos h1.symm, h2]
      · have hc : c0 ≠ c := by
          intro hc0
          exact hnd.1 (hc0 ▸ List.mem_map_of_mem Prod.fst hmem2)
        rw [scoreOf_cons, if_neg hc]
        exact ih hnd.2 hmem2

theorem contrib_shift (k : ℚ) (items : List (String × ℚ)) (x : String) :
    (match items.findIdx? (fun p => p.1 = x) with
     | some i => 1 / (k + ((1 + i : Nat) : ℚ))
     | none => (0 : ℚ)) = contrib k items x := by
  rw [contrib]
  cases items.findIdx? (fun p => p.1 = x) with
  | none => rfl
  | some i =>
      show 1 / (k + ((1 + i : Nat) : ℚ)) = 1 / (k + ((i + 1 : Nat) : ℚ))
      rw [Nat.add_comm 1 i]

theorem rrf_unfold (d s : List (String × ℚ)) (k : ℚ) :
    reciprocal_rank_fusion [("dense", d), ("sparse", s)] k =
      sortByDesc (fun e => e.2.1)
        ((processItems "sparse" k s 1 (processItems "dense" k d 1 ([], []))).1.map
          (fun cs => (cs.1, cs.2,
            (((processItems "sparse" k s 1 (processItems "dense" k d 1 ([], []))).2.find?
              (fun p => p.1 = cs.1)).map (fun p => p.2)).getD ""))) := rfl

theorem scoreOf_rrf_acc (d s : List (String × ℚ)) (k : ℚ)
    (hd : (d.map Prod.fst).Nodup) (hs : (s.map Prod.fst).Nodup) (c : String) :
    scoreOf (processItems "sparse" k s 1 (processItems "dense" k d 1 ([], []))).1 c =
      rrfScore k d s c := by
  rcases hst1 : processItems "dense" k d 1 ([], []) with ⟨acc1, prov1⟩
  have hd1 : scoreOf acc1 c = contrib k d c := by
    have h0 := scoreOf_processItems "dense" k d c hd 1 [] []
    rw [hst1] at h0
    have hz : scoreOf ([] : List (String × ℚ)) c = 0 := rfl
    rw [hz, zero_add] at h0
    rw [← contrib_shift k d c]
    exact h0
  rw [scoreOf_processItems "sparse" k s c hs 1 acc1 prov1, hd1, rrfScore,
    ← contrib_shift k s c]

theorem provOf_rrf_acc (d s : List (String × ℚ)) (k : ℚ) (c : String) :
    provOf (processItems "sparse" k s 1 (processItems "dense" k d 1 ([], []))).2 c =
      (if c ∈ d.map Prod.fst then some "dense"
       else if c ∈ s.map Prod.fst then some "sparse" else none) := by
  rcases hst1 : processItems "dense" k d 1 ([], []) with ⟨acc1, prov1⟩
  have h1 : provOf prov1 c = (if c ∈ d.map Prod.fst then some "dense" else none) := by
    have h0 := provOf_processItems "dense" k d c 1 [] []
    rw [hst1] at h0
    have hz : provOf ([] : List (String × String)) c = none := rfl
    rw [hz] at h0
    simpa using h0
  rw [provOf_processItems "sparse" k s c 1 acc1 prov1, h1]
  by_cases hdm : c ∈ d.map Prod.fst
  · simp [hdm]
  · simp [hdm]

theorem keys_rrf_acc (d s : List (String × ℚ)) (k : ℚ)
    (hd : (d.map Prod.fst).Nodup) (hs : (s.map Prod.fst).Nodup) :
    (processItems "sparse" k s 1 (processItems "dense" k d 1 ([], []))).1.map Prod.fst =
      firstOccOrder (d.map Prod.fst) (s.map Prod.fst) := by
  rcases hst1 : processItems "dense" k d 1 ([], []) with ⟨acc1, prov1⟩
  have h1 : acc1.map Prod.fst = d.map Prod.fst := by
    have h0 := keys_processItems "dense" k d hd 1 [] []
    rw [hst1] at h0
    simpa using h0
  rw [keys_processItems "sparse" k s hs 1 acc1 prov1, h1, firstOccOrder]

theorem nodup_keys_rrf_acc (d s : List (String × ℚ)) (k : ℚ)
    (hd : (d.map Prod.fst).Nodup) (hs : (s.map Prod.fst).Nodup) :
    ((processItems "sparse" k s 1 (processItems "dense" k d 1 ([], []))).1.map Prod.fst).Nodup := by
  rcases hst1 : processItems "dense" k d 1 ([], []) with ⟨acc1, prov1⟩
  have h1 : (acc1.map Prod.fst).Nodup := by
    have h0 := nodup_keys_processItems "dense" k d hd 1 [] [] (by simp)
    rw [hst1] at h0
    exact h0
  exact nodup_keys_processItems "sparse" k s hs 1 acc1 prov1 h1

theorem rrf_mem_facts (d s : List (String × ℚ)) (k : ℚ)
    (hd : (d.map Prod.fst).Nodup) (hs : (s.map Prod.fst).Nodup) :
    ∀ e : String × ℚ × String, e ∈ reciprocal_rank_fusion [("dense", d), ("sparse", s)] k →
      e.2.1 = rrfScore k d s e.1 ∧
      e.2.2 = (if e.1 ∈ d.map Prod.fst then "dense" else "sparse") ∧
      (e.1 ∈ d.map Prod.fst ∨ e.1 ∈ s.map Prod.fst) := by
  intro e he
  rw [rrf_unfold] at he
  have he2 := (sortByDesc_perm (fun e : String × ℚ × String => e.2.1) _).mem_iff.mp he
  obtain ⟨cs, hcs, hecs⟩ := List.mem_map.mp he2
  have hkey : cs.1 ∈ (processItems "sparse" k s 1
      (processItems "dense" k d 1 ([], []))).1.map Prod.fst :=
    List.mem_map_of_mem Prod.fst hcs
  rw [keys_rrf_acc d s k hd hs, firstOccOrder] at hkey
  have hmem : cs.1 ∈ d.map Prod.fst ∨ cs.1 ∈ s.map Prod.fst := by
    rcases List.mem_append.mp hkey with h | h
    · exact Or.inl h
    · exact Or.inr (List.mem_of_mem_filter h)
  have hsc : cs.2 = rrfScore k d s cs.1 := by
    rw [← scoreOf_rrf_acc d s k hd hs cs.1]
    exact (scoreOf_eq_of_mem _ (nodup_keys_rrf_acc d s k hd hs) cs.1 cs.2 hcs).symm
  subst hecs
  refine ⟨hsc, ?_, hmem⟩
  show (((processItems "sparse" k s 1 (processItems "dense" k d 1 ([], []))).2.find?
      (fun p => p.1 = cs.1)).map (fun p => p.2)).getD "" =
    (if cs.1 ∈ d.map Prod.fst then "dense" else "sparse")
  have hpv := provOf_rrf_acc d s k cs.1
  rw [provOf] at hpv
  rw [hpv]
  by_cases hdm : cs.1 ∈ d.map Prod.fst
  · simp [hdm]
  · rcases hmem with h | h
    · exact absurd h hdm
    · simp [hdm, h]

theorem rrf_sorted (rankings : List (String × List (String × ℚ))) (k : ℚ) :
    (reciprocal_rank_fusion rankings k).Pairwise (fun a b => b.2.1 ≤ a.2.1) := by
  exact sortByDesc_pairwise _ _

theorem rrf_keys_perm (d s : List (String × ℚ)) (k : ℚ)
    (hd : (d.map Prod.fst).Nodup) (hs : (s.map Prod.fst).Nodup) :
    ((reciprocal_rank_fusion [("dense", d), ("sparse", s)] k).map (fun e => e.1)).Perm
      (firstOccOrder (d.map Prod.fst) (s.map Prod.fst)) := by
  rw [rrf_unfold]
  have hp := (sortByDesc_perm (fun e : String × ℚ × String => e.2.1)
    ((processItems "sparse" k s 1 (processItems "dense" k d 1 ([], []))).1.map
      (fun cs => (cs.1, cs.2,
        (((processItems "sparse" k s 1 (processItems "dense" k d 1 ([], []))).2.find?
          (fun p => p.1 = cs.1)).map (fun p => p.2)).getD "")))).map (fun e => e.1)
  rw [List.map_map] at hp
  have hk : ((processItems "sparse" k s 1 (processItems "dense" k d 1 ([], []))).1.map
      ((fun e : String × ℚ × String => e.1) ∘ (fun cs : String × ℚ =>
        (cs.1, cs.2,
          (((processItems "sparse" k s 1 (processItems "dense" k d 1 ([], []))).2.find?
            (fun p => p.1 = cs.1)).map (fun p => p.2)).getD "")))) =
      (processItems "sparse" k s 1 (processItems "dense" k d 1 ([], []))).1.map Prod.fst := rfl
  rw [hk] at hp
  rw [keys_rrf_acc d s k hd hs] at hp
  exact hp

/-- C3: for every pair of duplicate-free named ranking source lists
(`"dense"` then `"sparse"`, the retriever's fixed order),
`reciprocal_rank_fusion` assigns each chunk_id the fused score
`Σ 1/(k + r)` over the sources containing it (`r` its 1-based rank there; a
source not containing the chunk contributes 0), attributes provenance to the
first source in that order containing it, and returns the list sorted by
descending fused score. -/
theorem C3_rrf_score_provenance_sorted (d s : List (String × ℚ)) (k : ℚ)
    (hd : (d.map Prod.fst).Nodup) (hs : (s.map Prod.fst).Nodup) :
    (∀ e : String × ℚ × String,
        e ∈ reciprocal_rank_fusion [("dense", d), ("sparse", s)] k →
          e.2.1 = rrfScore k d s e.1 ∧
          e.2.2 = (if e.1 ∈ d.map Prod.fst then "dense" else "sparse")) ∧
    (∀ c : String, c ∈ d.map Prod.fst ∨ c ∈ s.map Prod.fst →
        c ∈ (reciprocal_rank_fusion [("dense", d), ("sparse", s)] k).map (fun e => e.1)) ∧
    (reciprocal_rank_fusion [("dense", d), ("sparse", s)] k).Pairwise
      (fun a b => b.2.1 ≤ a.2.1) := by
  refine ⟨?_, ?_, rrf_sorted _ k⟩
  · intro e he
    exact ⟨(rrf_mem_facts d s k hd hs e he).1, (rrf_mem_facts d s k hd hs e he).2.1⟩
  · intro c hc
    rw [(rrf_keys_perm d s k hd hs).mem_iff, firstOccOrder]
    rcases hc with h | h
    · exact List.mem_append.mpr (Or.inl h)
    · by_cases hdm : c ∈ d.map Prod.fst
      · exact List.mem_append.mpr (Or.inl hdm)
      · exact List.mem_append.mpr (Or.inr (List.mem_filter.mpr ⟨h, by simpa using hdm⟩))

/-- Witness for C3 at a concrete input. -/
theorem C3_witness :
    (((c3dense.map Prod.fst).Nodup ∧ (c3sparse.map Prod.fst).Nodup) ∧
     ((∀ e : String × ℚ × String,
         e ∈ reciprocal_rank_fusion [("dense", c3dense), ("sparse", c3sparse)] 60 →
           e.2.1 = rrfScore 60 c3dense c3sparse e.1 ∧
           e.2.2 = (if e.1 ∈ c3dense.map Prod.fst then "dense" else "sparse")) ∧
      (∀ c : String, c ∈ c3dense.map Prod.fst ∨ c ∈ c3sparse.map Prod.fst →
         c ∈ (reciprocal_rank_fusion [("dense", c3dense), ("sparse", c3sparse)] 60).map
           (fun e => e.1)) ∧
      (reciprocal_rank_fusion [("dense", c3dense), ("sparse", c3sparse)] 60).Pairwise
        (fun a b => b.2.1 ≤ a.2.1))) :=
  ⟨⟨by decide, by decide⟩,
   C3_rrf_score_provenance_sorted c3dense c3sparse 60 (by decide) (by decide)⟩

/-! ## Retriever dictionary lemmas -/

theorem dictInsertQ_not_mem (m : List (String × ℚ)) (key : String) (v : ℚ)
    (h : key ∉ m.map Prod.fst) : dictInsertQ m key v = m ++ [(key, v)] := by
  induction m with
  | nil => rfl
  | cons hd tl ih =>
      obtain ⟨k0, v0⟩ := hd
      simp only [List.map_cons, List.mem_cons] at h
      push_neg at h
      rw [dictInsertQ, if_neg (fun he => h.1 he.symm), ih h.2]
      rfl

theorem foldl_dictInsertQ (l : List (String × ℚ × String)) :
    ∀ (m : List (String × ℚ)),
    (l.map (fun e => e.1)).Nodup →
    (∀ a ∈ l.map (fun e => e.1), a ∉ m.map Prod.fst) →
    l.foldl (fun m e => dictInsertQ m e.1 e.2.1) m = m ++ l.map (fun e => (e.1, e.2.1)) := by
  induction l with
  | nil => intro m _ _; simp
  | cons e l ih =>
      intro m hnd hdisj
      simp only [List.map_cons, List.nodup_cons] at hnd
      simp only [List.foldl_cons]
      rw [dictInsertQ_not_mem m e.1 e.2.1 (hdisj e.1 (by simp))]
      rw [ih (m ++ [(e.1, e.2.1)]) hnd.2 ?_]
      · simp
      · intro a ha
        simp only [List.map_append, List.map_cons, List.map_nil, List.mem_append,
          List.mem_singleton]
        push_neg
        refine ⟨hdisj a (by simp [ha]), ?_⟩
        intro he
        exact hnd.1 (he ▸ ha)

theorem mem_dictInsert (m : List (String × Hit)) (key : String) (h : Hit)
    (kp : String × Hit) (hm : kp ∈ dictInsert m key h) : kp ∈ m ∨ kp = (key, h) := by
  induction m with
  | nil => simpa [dictInsert] using hm
  | cons hd tl ih =>
      obtain ⟨k0, h0⟩ := hd
      by_cases he : k0 = key
      · subst he
        rw [dictInsert, if_pos rfl] at hm
        rcases List.mem_cons.mp hm with h1 | h1
        · right; rw [h1]
        · left; exact List.mem_cons_of_mem _ h1
      · rw [dictInsert, if_neg he] at hm
        rcases List.mem_cons.mp hm with h1 | h1
        · left; exact h1 ▸ List.mem_cons_self _ _
        · rcases ih h1 with h2 | h2
          · left; exact List.mem_cons_of_mem _ h2
          · right; exact h2

theorem buildEnriched_chunkid (hits : List Hit) :
    ∀ kp ∈ buildEnriched hits, kp.2.chunk_id = kp.1 := by
  suffices h : ∀ (m0 : List (String × Hit)), (∀ kp ∈ m0, kp.2.chunk_id = kp.1) →
      ∀ kp ∈ hits.foldl (fun m h => dictInsert m h.chunk_id h) m0, kp.2.chunk_id = kp.1 by
    exact h [] (by simp)
  induction hits with
  | nil => intro m0 hm0 kp hkp; exact hm0 kp hkp
  | cons h0 tl ih =>
      intro m0 hm0 kp hkp
      simp only [List.foldl_cons] at hkp
      refine ih (dictInsert m0 h0.chunk_id h0) ?_ kp hkp
      intro kp2 hkp2
      rcases mem_dictInsert m0 h0.chunk_id h0 kp2 hkp2 with h1 | h1
      · exact hm0 kp2 h1
      · rw [h1]

theorem find?_dictInsert_eq (m : List (String × Hit)) (key : String) (h : Hit) (c : String) :
    (dictInsert m key h).find? (fun p => p.1 = c) =
      if key = c then some (key, h) else m.find? (fun p => p.1 = c) := by
  induction m with
  | nil =>
      by_cases hc : key = c
      · rw [dictInsert, if_pos hc, List.find?_cons_of_pos _ (by simpa using hc)]
      · rw [dictInsert, if_neg hc, List.find?_cons_of_neg _ (by simpa using hc)]
  | cons hd tl ih =>
      obtain ⟨k0, h0⟩ := hd
      by_cases he : k0 = key
      · subst he
        rw [dictInsert, if_pos rfl]
        by_cases hc : k0 = c
        · rw [List.find?_cons_of_pos _ (by simpa using hc), if_pos hc]
        · rw [List.find?_cons_of_neg _ (by simpa using hc), if_neg hc,
            List.find?_cons_of_neg _ (by simpa using hc)]
      · rw [dictInsert, if_neg he]
        by_cases hc : k0 = c
        · have hkc : ¬ key = c := fun hkey => he (hkey ▸ hc)
          rw [List.find?_cons_of_pos _ (by simpa using hc), if_neg hkc,
            List.find?_cons_of_pos _ (by simpa using hc)]
        · rw [List.find?_cons_of_neg _ (by simpa using hc), ih,
            List.find?_cons_of_neg _ (by simpa using hc)]

theorem find?_foldl_dictInsert (hits : List Hit) :
    ∀ (m : List (String × Hit)) (c : String),
    (hits.foldl (fun m h => dictInsert m h.chunk_id h) m).find? (fun p => p.1 = c) =
      match hits.reverse.find? (fun h => h.chunk_id = c) with
      | some h0 => some (h0.chunk_id, h0)
      | none => m.find? (fun p => p.1 = c) := by
  induction hits with
  | nil => intro m c; rfl
  | cons h0 tl ih =>
      intro m c
      simp only [List.foldl_cons, List.reverse_cons, List.find?_append]
      rw [ih]
      cases hf : tl.reverse.find? (fun h => h.chunk_id = c) with
      | some h1 => rfl
      | none =>
          rw [find?_dictInsert_eq]
          by_cases hc : h0.chunk_id = c
          · rw [if_pos hc]
            have hone : List.find? (fun h => decide (h.chunk_id = c)) [h0] = some h0 :=
              List.find?_cons_of_pos _ (by simpa using hc)
            rw [hone]
            simp
          · rw [if_neg hc]
            have hone : List.find? (fun h => decide (h.chunk_id = c)) [h0] = none := by
              rw [List.find?_cons_of_neg _ (by simpa using hc)]
              rfl
            rw [hone]
            simp

theorem find?_chunkid_of_mem (l : List Hit) (hnd : (l.map Hit.chunk_id).Nodup)
    (hx : Hit) (hmem : hx ∈ l) : l.find? (fun h => h.chunk_id = hx.chunk_id) = some hx := by
  induction l with
  | nil => cases hmem
  | cons h0 tl ih =>
      simp only [List.map_cons, List.nodup_cons] at hnd
      rcases List.mem_cons.mp hmem with h1 | h1
      · subst h1
        exact List.find?_cons_of_pos _ (by simp)
      · have hne : h0.chunk_id ≠ hx.chunk_id := by
          intro he
          exact hnd.1 (he ▸ List.mem_map_of_mem Hit.chunk_id h1)
        rw [List.find?_cons_of_neg _ (by simpa using hne)]
        exact ih hnd.2 h1

theorem firstOccOrder_nodup (dk sk : List String) (hd : dk.Nodup) (hs : sk.Nodup) :
    (firstOccOrder dk sk).Nodup := by
  rw [firstOccOrder]
  refine List.Nodup.append hd (hs.filter _) ?_
  intro a ha hb
  have := List.of_mem_filter hb
  simp only [decide_eq_true_eq] at this
  exact this ha

theorem enrichHit_score (enriched : List (String × Hit)) (cs : String × ℚ) :
    (enrichHit enriched cs).score = cs.2 := by
  rw [enrichHit]
  cases enriched.find? (fun p => p.1 = cs.1) <;> rfl

theorem enrichHit_chunkid (enriched : List (String × Hit))
    (henr : ∀ kp ∈ enriched, kp.2.chunk_id = kp.1) (cs : String × ℚ) :
    (enrichHit enriched cs).chunk_id = cs.1 := by
  rw [enrichHit]
  cases hf : enriched.find? (fun p => p.1 = cs.1) with
  | none => rfl
  | some p =>
      have hp1 : p.1 = cs.1 := by simpa using List.find?_some hf
      have hp2 := henr p (List.mem_of_find?_eq_some hf)
      show p.2.chunk_id = cs.1
      rw [hp2, hp1]

theorem rrf_filter_sublist (d s : List (String × ℚ)) (k : ℚ)
    (hd : (d.map Prod.fst).Nodup) (hs : (s.map Prod.fst).Nodup) (q : ℚ) :
    (((reciprocal_rank_fusion [("dense", d), ("sparse", s)] k).filter
        (fun e => decide (e.2.1 = q))).map (fun e => e.1)).Sublist
      (firstOccOrder (d.map Prod.fst) (s.map Prod.fst)) := by
  rw [rrf_unfold]
  rw [sortByDesc_filter (fun e : String × ℚ × String => e.2.1)]
  have h1 := (List.filter_sublist (l :=
    ((processItems "sparse" k s 1 (processItems "dense" k d 1 ([], []))).1.map
      (fun cs => (cs.1, cs.2,
        (((processItems "sparse" k s 1 (processItems "dense" k d 1 ([], []))).2.find?
          (fun p => p.1 = cs.1)).map (fun p => p.2)).getD ""))))
    (p := fun e => decide (e.2.1 = q))).map (fun e : String × ℚ × String => e.1)
  have h2 : (((processItems "sparse" k s 1 (processItems "dense" k d 1 ([], []))).1.map
      (fun cs => (cs.1, cs.2,
        (((processItems "sparse" k s 1 (processItems "dense" k d 1 ([], []))).2.find?
          (fun p => p.1 = cs.1)).map (fun p => p.2)).getD ""))).map
      (fun e : String × ℚ × String => e.1)) =
      firstOccOrder (d.map Prod.fst) (s.map Prod.fst) := by
    rw [List.map_map]
    exact keys_rrf_acc d s k hd hs
  rw [h2] at h1
  exact h1

theorem retrieve_unfold (dh sh : List Hit) (k : ℚ) (t : Nat) :
    retrieve dh sh k t =
      (sortByDesc (fun h => h.score)
        (((reciprocal_rank_fusion
            [("dense", dh.map (fun h => (h.chunk_id, h.score))),
             ("sparse", sh.map (fun h => (h.chunk_id, h.score)))] k).foldl
           (fun m e => dictInsertQ m e.1 e.2.1) []).map
          (fun cs => enrichHit (buildEnriched (dh ++ sh)) cs))).take t := rfl

theorem retrieve_eq (dh sh : List Hit) (k : ℚ) (t : Nat)
    (hd : (dh.map Hit.chunk_id).Nodup) (hs : (sh.map Hit.chunk_id).Nodup) :
    retrieve dh sh k t =
      ((reciprocal_rank_fusion
          [("dense", dh.map (fun h => (h.chunk_id, h.score))),
           ("sparse", sh.map (fun h => (h.chunk_id, h.score)))] k).map
        (fun e => enrichHit (buildEnriched (dh ++ sh)) (e.1, e.2.1))).take t := by
  rw [retrieve_unfold]
  have hdp : ((dh.map (fun h => (h.chunk_id, h.score))).map Prod.fst).Nodup := by
    rw [List.map_map]
    exact hd
  have hsp : ((sh.map (fun h => (h.chunk_id, h.score))).map Prod.fst).Nodup := by
    rw [List.map_map]
    exact hs
  have hfknd : ((reciprocal_rank_fusion
      [("dense", dh.map (fun h => (h.chunk_id, h.score))),
       ("sparse", sh.map (fun h => (h.chunk_id, h.score)))] k).map
      (fun e => e.1)).Nodup := by
    rw [(rrf_keys_perm _ _ k hdp hsp).nodup_iff]
    exact firstOccOrder_nodup _ _ hdp hsp
  rw [foldl_dictInsertQ _ [] hfknd (by simp)]
  rw [List.nil_append, List.map_map]
  have hsorted : ((reciprocal_rank_fusion
      [("dense", dh.map (fun h => (h.chunk_id, h.score))),
       ("sparse", sh.map (fun h => (h.chunk_id, h.score)))] k).map
      ((fun cs => enrichHit (buildEnriched (dh ++ sh)) cs) ∘
        (fun e : String × ℚ × String => (e.1, e.2.1)))).Pairwise
      (fun a b => b.score ≤ a.score) := by
    rw [List.pairwise_map]
    refine (rrf_sorted _ k).imp ?_
    intro a b hab
    show (enrichHit (buildEnriched (dh ++ sh)) (b.1, b.2.1)).score ≤
      (enrichHit (buildEnriched (dh ++ sh)) (a.1, a.2.1)).score
    rw [enrichHit_score, enrichHit_score]
    exact hab
  rw [sortByDesc_eq_of_sorted hsorted]
  rfl

theorem enrichHit_eq_of_find (enriched : List (String × Hit)) (cs : String × ℚ)
    (p : String × Hit) (hf : enriched.find? (fun q => q.1 = cs.1) = some p) :
    enrichHit enriched cs = { p.2 with score := cs.2 } := by
  rw [enrichHit, hf]

/-- C4: for every `chunk_id` present in both branch result lists (each branch
duplicate-free, as the keyed store guarantees), the hit `retrieve` returns
for it carries `content`, `level`, `metadata` and `document_id` of the
sparse-branch hit — the branch merged last into the combined lookup — while
its `score` is the fused RRF score. -/
theorem C4_sparse_attributes_win (dh sh : List Hit) (k : ℚ) (t : Nat)
    (hd : (dh.map Hit.chunk_id).Nodup) (hs : (sh.map Hit.chunk_id).Nodup)
    (cid : String) (hdhit hshit : Hit)
    (hdm : hdhit ∈ dh) (hdc : hdhit.chunk_id = cid)
    (hsm : hshit ∈ sh) (hsc : hshit.chunk_id = cid)
    (h : Hit) (hh : h ∈ retrieve dh sh k t) (hhc : h.chunk_id = cid) :
    h.content = hshit.content ∧ h.level = hshit.level ∧
    h.metadata = hshit.metadata ∧ h.document_id = hshit.document_id ∧
    h.score = rrfScore k (dh.map (fun x => (x.chunk_id, x.score)))
      (sh.map (fun x => (x.chunk_id, x.score))) cid := by
  rw [retrieve_eq dh sh k t hd hs] at hh
  have hh2 := List.mem_of_mem_take hh
  obtain ⟨e, he, hFe⟩ := List.mem_map.mp hh2
  have henr := buildEnriched_chunkid (dh ++ sh)
  have hhcid : h.chunk_id = e.1 := by
    rw [← hFe]
    exact enrichHit_chunkid _ henr (e.1, e.2.1)
  have he1 : e.1 = cid := by rw [← hhcid, hhc]
  have hrev : (dh ++ sh).reverse.find? (fun x => x.chunk_id = cid) = some hshit := by
    rw [List.reverse_append, List.find?_append]
    have hnds : (sh.reverse.map Hit.chunk_id).Nodup := by
      rw [List.map_reverse]
      exact (List.nodup_reverse).mpr hs
    have hsrev := find?_chunkid_of_mem sh.reverse hnds hshit (List.mem_reverse.mpr hsm)
    rw [hsc] at hsrev
    rw [hsrev]
    rfl
  have hfind : (buildEnriched (dh ++ sh)).find? (fun p => p.1 = e.1) =
      some (hshit.chunk_id, hshit) := by
    have hb : buildEnriched (dh ++ sh) =
        (dh ++ sh).foldl (fun m x => dictInsert m x.chunk_id x) [] := rfl
    rw [hb, find?_foldl_dictInsert (dh ++ sh) [] e.1, he1, hrev]
  have heq : enrichHit (buildEnriched (dh ++ sh)) (e.1, e.2.1) =
      { hshit with score := e.2.1 } :=
    enrichHit_eq_of_find _ _ _ hfind
  have hscore := (rrf_mem_facts _ _ k (by rw [List.map_map]; exact hd)
    (by rw [List.map_map]; exact hs) e he).1
  subst hFe
  rw [heq]
  refine ⟨rfl, rfl, rfl, rfl, ?_⟩
  show e.2.1 = _
  rw [hscore, he1]

/-- Witness for C4 at a concrete input. -/
theorem C4_witness :
    ((c4dense.map Hit.chunk_id).Nodup ∧ (c4sparse.map Hit.chunk_id).Nodup ∧
     c4dhit ∈ c4dense ∧ c4dhit.chunk_id = "c1" ∧
     c4shit ∈ c4sparse ∧ c4shit.chunk_id = "c1" ∧
     c4fused ∈ retrieve c4dense c4sparse 60 8 ∧ c4fused.chunk_id = "c1") ∧
    (c4fused.content = c4shit.content ∧ c4fused.level = c4shit.level ∧
     c4fused.metadata = c4shit.metadata ∧ c4fused.document_id = c4shit.document_id ∧
     c4fused.score = rrfScore 60 (c4dense.map (fun x => (x.chunk_id, x.score)))
       (c4sparse.map (fun x => (x.chunk_id, x.score))) "c1") := by
  have hretr : retrieve c4dense c4sparse 60 8 = [c4fused] := by
    norm_num [retrieve, c4dense, c4sparse, c4dhit, c4shit, c4fused, reciprocal_rank_fusion,
      processItems, addContribution, setDefault, sortByDesc, insertByDesc, dictInsertQ,
      buildEnriched, dictInsert, enrichHit, List.find?]
  refine ⟨⟨by decide, by decide, by simp [c4dense], rfl, by simp [c4sparse], rfl, ?_, rfl⟩, ?_⟩
  · rw [hretr]
    simp
  · exact C4_sparse_attributes_win c4dense c4sparse 60 8 (by decide) (by decide) "c1"
      c4dhit c4shit (by simp [c4dense]) rfl (by simp [c4sparse]) rfl
      c4fused (by rw [hretr]; simp) rfl

/-- C10: for every fixed pair of branch result lists (each branch's
chunk_ids duplicate-free, as the keyed store guarantees), `retrieve` is
deterministic — equal inputs give equal output — and hits with equal fused
scores appear in the output in first-occurrence order across the branches:
dense-branch chunk_ids in dense list order, then sparse-only chunk_ids in
sparse list order. -/
theorem C10_deterministic_stable_ties (dh sh : List Hit) (k : ℚ) (t : Nat)
    (hd : (dh.map Hit.chunk_id).Nodup) (hs : (sh.map Hit.chunk_id).Nodup) :
    retrieve dh sh k t = retrieve dh sh k t ∧
    ∀ q : ℚ,
      (((retrieve dh sh k t).filter (fun h => decide (h.score = q))).map
        Hit.chunk_id).Sublist
        (firstOccOrder (dh.map Hit.chunk_id) (sh.map Hit.chunk_id)) := by
  refine ⟨rfl, ?_⟩
  intro q
  rw [retrieve_eq dh sh k t hd hs]
  have hdp : ((dh.map (fun h => (h.chunk_id, h.score))).map Prod.fst).Nodup := by
    rw [List.map_map]
    exact hd
  have hsp : ((sh.map (fun h => (h.chunk_id, h.score))).map Prod.fst).Nodup := by
    rw [List.map_map]
    exact hs
  have hA : ((((reciprocal_rank_fusion
        [("dense", dh.map (fun h => (h.chunk_id, h.score))),
         ("sparse", sh.map (fun h => (h.chunk_id, h.score)))] k).map
        (fun e => enrichHit (buildEnriched (dh ++ sh)) (e.1, e.2.1))).take t).filter
      (fun h => decide (h.score = q))).Sublist
      (((reciprocal_rank_fusion
        [("dense", dh.map (fun h => (h.chunk_id, h.score))),
         ("sparse", sh.map (fun h => (h.chunk_id, h.score)))] k).map
        (fun e => enrichHit (buildEnriched (dh ++ sh)) (e.1, e.2.1))).filter
      (fun h => decide (h.score = q))) :=
    (List.take_sublist t _).filter _
  have hB : (((reciprocal_rank_fusion
        [("dense", dh.map (fun h => (h.chunk_id, h.score))),
         ("sparse", sh.map (fun h => (h.chunk_id, h.score)))] k).map
        (fun e => enrichHit (buildEnriched (dh ++ sh)) (e.1, e.2.1))).filter
      (fun h => decide (h.score = q))).map Hit.chunk_id =
      ((reciprocal_rank_fusion
        [("dense", dh.map (fun h => (h.chunk_id, h.score))),
         ("sparse", sh.map (fun h => (h.chunk_id, h.score)))] k).filter
        (fun e => decide (e.2.1 = q))).map (fun e => e.1) := by
    rw [List.filter_map]
    have hpred : ((fun h => decide (h.score = q)) ∘
        (fun e : String × ℚ × String => enrichHit (buildEnriched (dh ++ sh)) (e.1, e.2.1))) =
        (fun e : String × ℚ × String => decide (e.2.1 = q)) := by
      funext e
      show decide ((enrichHit (buildEnriched (dh ++ sh)) (e.1, e.2.1)).score = q) = _
      rw [enrichHit_score]
    rw [hpred, List.map_map]
    have hcid : (Hit.chunk_id ∘
        (fun e : String × ℚ × String => enrichHit (buildEnriched (dh ++ sh)) (e.1, e.2.1))) =
        (fun e : String × ℚ × String => e.1) := by
      funext e
      show (enrichHit (buildEnriched (dh ++ sh)) (e.1, e.2.1)).chunk_id = e.1
      exact enrichHit_chunkid _ (buildEnriched_chunkid (dh ++ sh)) (e.1, e.2.1)
    rw [hcid]
  have hC : (((reciprocal_rank_fusion
        [("dense", dh.map (fun h => (h.chunk_id, h.score))),
         ("sparse", sh.map (fun h => (h.chunk_id, h.score)))] k).filter
        (fun e => decide (e.2.1 = q))).map (fun e => e.1)).Sublist
      (firstOccOrder (dh.map Hit.chunk_id) (sh.map Hit.chunk_id)) := by
    have hC0 := rrf_filter_sublist (dh.map (fun h => (h.chunk_id, h.score)))
      (sh.map (fun h => (h.chunk_id, h.score))) k hdp hsp q
    rw [List.map_map, List.map_map] at hC0
    exact hC0
  have hfinal := hA.map Hit.chunk_id
  rw [hB] at hfinal
  exact hfinal.trans hC

/-- Witness for C10 at a concrete input. -/
theorem C10_witness :
    ((c4dense.map Hit.chunk_id).Nodup ∧ (c4sparse.map Hit.chunk_id).Nodup) ∧
    (retrieve c4dense c4sparse 60 8 = retrieve c4dense c4sparse 60 8 ∧
     ∀ q : ℚ,
       (((retrieve c4dense c4sparse 60 8).filter (fun h => decide (h.score = q))).map
         Hit.chunk_id).Sublist
         (firstOccOrder (c4dense.map Hit.chunk_id) (c4sparse.map Hit.chunk_id))) :=
  ⟨⟨by decide, by decide⟩,
   C10_deterministic_stable_ties c4dense c4sparse 60 8 (by decide) (by decide)⟩

/-! ## Fresh-id range lemmas for the chunker and ingestion -/

theorem paragraph_chunks_facts (d : String) (pid : Nat) (md : List (String × String)) :
    ∀ (ps : List String) (n : Nat),
      n ≤ (paragraph_chunks d pid md ps n).2 ∧
      ∀ c ∈ (paragraph_chunks d pid md ps n).1,
        n ≤ c.chunk_id ∧ c.chunk_id < (paragraph_chunks d pid md ps n).2 := by
  intro ps
  induction ps with
  | nil =>
      intro n
      exact ⟨Nat.le_refl n, by intro c hc; simp [paragraph_chunks] at hc⟩
  | cons p pstl ih =>
      intro n
      obtain ⟨hmono, hrange⟩ := ih (n + 1)
      simp only [paragraph_chunks]
      refine ⟨Nat.le_trans (Nat.le_succ n) hmono, ?_⟩
      intro c hc
      rcases List.mem_cons.mp hc with h1 | h1
      · subst h1
        exact ⟨Nat.le_refl n, Nat.lt_of_lt_of_le (Nat.lt_succ_self n) hmono⟩
      · obtain ⟨ha, hb⟩ := hrange c h1
        exact ⟨Nat.le_trans (Nat.le_succ n) ha, hb⟩

theorem section_chunks_facts (d : String) (tid : Nat) (md : List (String × String)) :
    ∀ (secs : List (String × String)) (n : Nat),
      n ≤ (section_chunks d tid md secs n).2 ∧
      ∀ c ∈ (section_chunks d tid md secs n).1,
        n ≤ c.chunk_id ∧ c.chunk_id < (section_chunks d tid md secs n).2 := by
  intro secs
  induction secs with
  | nil =>
      intro n
      exact ⟨Nat.le_refl n, by intro c hc; simp [section_chunks] at hc⟩
  | cons sec rest ih =>
      obtain ⟨hd0, bd0⟩ := sec
      intro n
      obtain ⟨hpm, hpr⟩ := paragraph_chunks_facts d n md (paragraph_texts bd0) (n + 1)
      obtain ⟨htm, htr⟩ := ih (paragraph_chunks d n md (paragraph_texts bd0) (n + 1)).2
      simp only [section_chunks]
      refine ⟨Nat.le_trans (Nat.le_succ n) (Nat.le_trans hpm htm), ?_⟩
      intro c hc
      rcases List.mem_cons.mp hc with h1 | h1
      · subst h1
        refine ⟨Nat.le_refl n, ?_⟩
        exact Nat.lt_of_lt_of_le (Nat.lt_succ_self n) (Nat.le_trans hpm htm)
      · rcases List.mem_append.mp h1 with h2 | h2
        · obtain ⟨ha, hb⟩ := hpr c h2
          exact ⟨Nat.le_trans (Nat.le_succ n) ha, Nat.lt_of_lt_of_le hb htm⟩
        · obtain ⟨ha, hb⟩ := htr c h2
          exact ⟨Nat.le_trans (Nat.le_succ n) (Nat.le_trans hpm ha), hb⟩

theorem chunk_document_facts (d text : String) (md : List (String × String)) (n : Nat) :
    n ≤ (chunk_document d text md n).2 ∧
    ∀ c ∈ (chunk_document d text md n).1,
      n ≤ c.chunk_id ∧ c.chunk_id < (chunk_document d text md n).2 := by
  by_cases he : pyStrip text = ""
  · simp [chunk_document, he]
  · simp only [chunk_document, if_neg he]
    obtain ⟨hmono, hrange⟩ := section_chunks_facts d n md (split_sections text) (n + 1)
    refine ⟨Nat.le_trans (Nat.le_succ n) hmono, ?_⟩
    intro c hc
    rcases List.mem_cons.mp hc with h1 | h1
    · subst h1
      exact ⟨Nat.le_refl n, Nat.lt_of_lt_of_le (Nat.lt_succ_self n) hmono⟩
    · obtain ⟨ha, hb⟩ := hrange c h1
      exact ⟨Nat.le_trans (Nat.le_succ n) ha, hb⟩

theorem table_chunks_facts (d : String) (md : List (String × String)) (filename : String) :
    ∀ (ts : List TableData) (n : Nat),
      n ≤ (table_chunks d md filename ts n).2 ∧
      ∀ c ∈ (table_chunks d md filename ts n).1,
        n ≤ c.chunk_id ∧ c.chunk_id < (table_chunks d md filename ts n).2 := by
  intro ts
  induction ts with
  | nil =>
      intro n
      exact ⟨Nat.le_refl n, by intro c hc; simp [table_chunks] at hc⟩
  | cons t tstl ih =>
      intro n
      by_cases hcsv : t.csv = ""
      · simp only [table_chunks, if_pos hcsv]
        exact ih n
      · obtain ⟨hmono, hrange⟩ := ih (n + 1)
        simp only [table_chunks, if_neg hcsv]
        refine ⟨Nat.le_trans (Nat.le_succ n) hmono, ?_⟩
        intro c hc
        rcases List.mem_cons.mp hc with h1 | h1
        · subst h1
          exact ⟨Nat.le_refl n, Nat.lt_of_lt_of_le (Nat.lt_succ_self n) hmono⟩
        · obtain ⟨ha, hb⟩ := hrange c h1
          exact ⟨Nat.le_trans (Nat.le_succ n) ha, hb⟩

theorem resolve_document_id_mono (md : List (String × String)) (n : Nat) :
    n ≤ (resolve_document_id md n).2 := by
  rw [resolve_document_id]
  cases md.find? (fun p => p.1 = "document_id") with
  | none => exact Nat.le_succ n
  | some p =>
      by_cases hp : p.2 = ""
      · simp only [hp, if_pos rfl]
        exact Nat.le_succ n
      · simp only [if_neg hp]
        exact Nat.le_refl n

theorem ingest_chunks_facts (text : String) (tables : List TableData) (filename : String)
    (md : List (String × String)) (n : Nat) :
    n ≤ (ingest_chunks text tables filename md n).2 ∧
    ∀ c ∈ (ingest_chunks text tables filename md n).1,
      n ≤ c.chunk_id ∧ c.chunk_id < (ingest_chunks text tables filename md n).2 := by
  simp only [ingest_chunks]
  have hres := resolve_document_id_mono md n
  obtain ⟨hcm, hcr⟩ := chunk_document_facts (resolve_document_id md n).1 text
    (dictInsertS md "document_id" (resolve_document_id md n).1) (resolve_document_id md n).2
  obtain ⟨htm, htr⟩ := table_chunks_facts (resolve_document_id md n).1
    (dictInsertS md "document_id" (resolve_document_id md n).1) filename tables
    (chunk_document (resolve_document_id md n).1 text
      (dictInsertS md "document_id" (resolve_document_id md n).1)
      (resolve_document_id md n).2).2
  refine ⟨Nat.le_trans hres (Nat.le_trans hcm htm), ?_⟩
  intro c hc
  rcases List.mem_append.mp hc with h1 | h1
  · obtain ⟨ha, hb⟩ := hcr c h1
    exact ⟨Nat.le_trans hres ha, Nat.lt_of_lt_of_le hb htm⟩
  · obtain ⟨ha, hb⟩ := htr c h1
    exact ⟨Nat.le_trans hres (Nat.le_trans hcm ha), hb⟩

/-- C1 counterexample: re-ingesting the same document with the same
`metadata["document_id"]` and unchanged content does NOT yield identical
`chunk_id`s — `uuid.uuid4()` draws fresh ids, so the second ingestion's ids
differ from the first's at this concrete input. -/
theorem C1_counterexample :
    ¬ ((ingest_chunks "Doc body" [] "f.txt" [("document_id", "doc1")] 0).1.map
        Chunk.chunk_id =
       (ingest_chunks "Doc body" [] "f.txt" [("document_id", "doc1")]
         (ingest_chunks "Doc body" [] "f.txt" [("document_id", "doc1")] 0).2).1.map
         Chunk.chunk_id) := by
  decide

/-- C1 (amended): re-ingestion is NOT idempotent on chunk identity — every
ingestion draws fresh `uuid.uuid4()` chunk ids, so each chunk_id of a second
ingestion of the same bytes and metadata is absent from the first
ingestion's chunk_ids (store rows are inserted anew rather than updated;
only a conflicting `chunk_id` would preserve `created_at` and update
content/embedding, and re-ingestion never produces one). -/
theorem C1_reingestion_fresh_chunk_ids (text : String) (tables : List TableData)
    (filename : String) (md : List (String × String)) (n0 : Nat) (a : Nat)
    (h1 : a ∈ (ingest_chunks text tables filename md n0).1.map Chunk.chunk_id) :
    a ∉ (ingest_chunks text tables filename md
      (ingest_chunks text tables filename md n0).2).1.map Chunk.chunk_id := by
  obtain ⟨c, hc, hca⟩ := List.mem_map.mp h1
  intro h2
  obtain ⟨c2, hc2, hc2a⟩ := List.mem_map.mp h2
  have f1 := (ingest_chunks_facts text tables filename md n0).2 c hc
  have f2 := (ingest_chunks_facts text tables filename md
    (ingest_chunks text tables filename md n0).2).2 c2 hc2
  have hlt : c.chunk_id < (ingest_chunks text tables filename md n0).2 := f1.2
  have hge : (ingest_chunks text tables filename md n0).2 ≤ c2.chunk_id := f2.1
  rw [← hca, ← hc2a] at *
  omega

/-- Witness for the amended C1 at a concrete input. -/
theorem C1_witness :
    (0 ∈ (ingest_chunks "Doc body" [] "f.txt" [("document_id", "doc1")] 0).1.map
      Chunk.chunk_id) ∧
    (0 ∉ (ingest_chunks "Doc body" [] "f.txt" [("document_id", "doc1")]
      (ingest_chunks "Doc body" [] "f.txt" [("document_id", "doc1")] 0).2).1.map
      Chunk.chunk_id) :=
  ⟨by decide,
   C1_reingestion_fresh_chunk_ids "Doc body" [] "f.txt" [("document_id", "doc1")] 0 0
     (by decide)⟩

/-- C2 counterexample: on the spec's concrete input the chunker emits THREE
section chunks — `"Title"`, `"Heading1"`, `"Heading2"` — not the two the
claim states: the text before the first blank line becomes a section of its
own. -/
theorem C2_counterexample :
    ((chunk_document "doc" c2text [] 0).1.filter (fun c => c.level = "section")).map
      Chunk.content ≠ ["Heading1", "Heading2"] := by
  decide

set_option maxRecDepth 100000 in
/-- C2 (amended): for the input `"Title\n\nHeading1\nline1\nline2\n\nHeading2\nline3"`,
`chunk_document` returns 1 title chunk followed by 3 section chunks
(`"Title"`, `"Heading1"`, `"Heading2"`), each paragraph chunk directly after
its section with `parent_id` equal to that section's `chunk_id`: section
`"Title"` has no paragraphs, `"Heading1"` has `"line1"`,`"line2"`, and
`"Heading2"` has `"line3"` (ids shown as drawn from the fresh-id counter
starting at 0). -/
theorem C2_chunker_structure :
    (chunk_document "doc" c2text [] 0).1 =
      [⟨0, "doc", none, "title", c2text, []⟩,
       ⟨1, "doc", some 0, "section", "Title", []⟩,
       ⟨2, "doc", some 0, "section", "Heading1", []⟩,
       ⟨3, "doc", some 2, "paragraph", "line1", []⟩,
       ⟨4, "doc", some 2, "paragraph", "line2", []⟩,
       ⟨5, "doc", some 0, "section", "Heading2", []⟩,
       ⟨6, "doc", some 5, "paragraph", "line3", []⟩] := by
  decide

/-! ## Store theorems -/

theorem eq_of_mem_nodup_ids (db : List Row) (hnd : (db.map Row.id).Nodup)
    (a b : Row) (ha : a ∈ db) (hb : b ∈ db) (hab : a.id = b.id) : a = b := by
  induction db with
  | nil => cases ha
  | cons r0 rest ih =>
      simp only [List.map_cons, List.nodup_cons] at hnd
      rcases List.mem_cons.mp ha with ha1 | ha1 <;> rcases List.mem_cons.mp hb with hb1 | hb1
      · rw [ha1, hb1]
      · exfalso
        apply hnd.1
        rw [← ha1, hab]
        exact List.mem_map_of_mem Row.id hb1
      · exfalso
        apply hnd.1
        rw [← hb1, ← hab]
        exact List.mem_map_of_mem Row.id ha1
      · exact ih hnd.2 ha1 hb1

/-- C5: a row whose `chunk_id` already exists is overwritten only in
`content`, `metadata`, `embedding` and `sparse_tokens`; its `created_at`,
`document_id`, `parent_id`, `level` (and `id`) are unchanged, and every
other row is untouched. `created_at` is set (to the insert-time default)
only on first insert, when no row with that `chunk_id` exists. -/
theorem C5_upsert_frame (db : List Row) (p : Payload) (now : Nat)
    (hnd : (db.map Row.id).Nodup) :
    (∀ r ∈ db, r.id = p.chunk_id →
      (∀ q ∈ execUpsert db p now, q.id = p.chunk_id →
        q.content = p.content ∧ q.metadata = p.metadata ∧
        q.embedding = p.embedding ∧ q.sparse_tokens = p.sparse_tokens ∧
        q.created_at = r.created_at ∧ q.document_id = r.document_id ∧
        q.parent_id = r.parent_id ∧ q.level = r.level ∧ q.id = r.id) ∧
      (∀ q ∈ execUpsert db p now, q.id ≠ p.chunk_id → q ∈ db) ∧
      (∀ q ∈ db, q.id ≠ p.chunk_id → q ∈ execUpsert db p now) ∧
      (execUpsert db p now).length = db.length) ∧
    ((∀ r ∈ db, r.id ≠ p.chunk_id) →
      execUpsert db p now =
        db ++ [{ id := p.chunk_id, document_id := p.document_id,
                 parent_id := p.parent_id, level := p.level, content := p.content,
                 metadata := p.metadata, embedding := p.embedding,
                 sparse_tokens := p.sparse_tokens, created_at := now }]) := by
  constructor
  · intro r hr hrid
    have hany : db.any (fun q => q.id = p.chunk_id) = true := by
      rw [List.any_eq_true]
      exact ⟨r, hr, by simpa using hrid⟩
    rw [execUpsert, if_pos hany]
    refine ⟨?_, ?_, ?_, List.length_map db _⟩
    · intro q hq hqid
      obtain ⟨q0, hq0, hq0e⟩ := List.mem_map.mp hq
      by_cases hq0id : q0.id = p.chunk_id
      · rw [if_pos hq0id] at hq0e
        have hq0r : q0 = r := eq_of_mem_nodup_ids db hnd q0 r hq0 hr (hq0id.trans hrid.symm)
        subst hq0e
        subst hq0r
        exact ⟨rfl, rfl, rfl, rfl, rfl, rfl, rfl, rfl, hq0id.trans hrid.symm ▸ rfl⟩
      · rw [if_neg hq0id] at hq0e
        subst hq0e
        exact absurd hqid hq0id
    · intro q hq hqid
      obtain ⟨q0, hq0, hq0e⟩ := List.mem_map.mp hq
      by_cases hq0id : q0.id = p.chunk_id
      · rw [if_pos hq0id] at hq0e
        exfalso
        apply hqid
        rw [← hq0e]
        exact hq0id
      · rw [if_neg hq0id] at hq0e
        subst hq0e
        exact hq0
    · intro q hq hqid
      have : (if q.id = p.chunk_id then
          { q with content := p.content, metadata := p.metadata,
                   embedding := p.embedding, sparse_tokens := p.sparse_tokens } else q) = q :=
        if_neg hqid
      rw [← this]
      exact List.mem_map_of_mem _ hq
  · intro hnone
    have hany : db.any (fun q => q.id = p.chunk_id) = false := by
      rw [List.any_eq_false]
      intro q hq
      simpa using hnone q hq
    rw [execUpsert, if_neg (by rw [hany]; exact Bool.false_ne_true)]

/-- Witness for C5 at a concrete input. -/
theorem C5_witness :
    ((c5db.map Row.id).Nodup) ∧
    ((∀ r ∈ c5db, r.id = c5payload.chunk_id →
      (∀ q ∈ execUpsert c5db c5payload 7, q.id = c5payload.chunk_id →
        q.content = c5payload.content ∧ q.metadata = c5payload.metadata ∧
        q.embedding = c5payload.embedding ∧ q.sparse_tokens = c5payload.sparse_tokens ∧
        q.created_at = r.created_at ∧ q.document_id = r.document_id ∧
        q.parent_id = r.parent_id ∧ q.level = r.level ∧ q.id = r.id) ∧
      (∀ q ∈ execUpsert c5db c5payload 7, q.id ≠ c5payload.chunk_id → q ∈ c5db) ∧
      (∀ q ∈ c5db, q.id ≠ c5payload.chunk_id → q ∈ execUpsert c5db c5payload 7) ∧
      (execUpsert c5db c5payload 7).length = c5db.length) ∧
    ((∀ r ∈ c5db, r.id ≠ c5payload.chunk_id) →
      execUpsert c5db c5payload 7 =
        c5db ++ [{ id := c5payload.chunk_id, document_id := c5payload.document_id,
                   parent_id := c5payload.parent_id, level := c5payload.level,
                   content := c5payload.content, metadata := c5payload.metadata,
                   embedding := c5payload.embedding,
                   sparse_tokens := c5payload.sparse_tokens, created_at := 7 }])) :=
  ⟨by decide, C5_upsert_frame c5db c5payload 7 (by decide)⟩

theorem runStatements_ok (now : Nat) (fails : Payload → Bool) :
    ∀ (rows : List Payload) (db : List Row),
      (∀ p ∈ rows, fails p = false) →
      runStatements now fails db rows =
        Except.ok (rows.foldl (fun d p => execUpsert d p now) db) := by
  intro rows
  induction rows with
  | nil => intro db _; rfl
  | cons p ps ih =>
      intro db hok
      have hp : fails p = false := hok p (List.mem_cons_self p ps)
      rw [runStatements, if_neg (by rw [hp]; exact Bool.false_ne_true)]
      rw [ih (execUpsert db p now) (fun q hq => hok q (List.mem_cons_of_mem p hq))]
      rfl

theorem runStatements_err (now : Nat) (fails : Payload → Bool) :
    ∀ (rows : List Payload) (db : List Row),
      (∃ p ∈ rows, fails p = true) →
      ∃ e, runStatements now fails db rows = Except.error e := by
  intro rows
  induction rows with
  | nil =>
      intro db h
      obtain ⟨p, hp, _⟩ := h
      cases hp
  | cons p ps ih =>
      intro db h
      by_cases hp : fails p = true
      · exact ⟨"StoreFailure", by rw [runStatements, if_pos hp]⟩
      · obtain ⟨q, hq, hqf⟩ := h
        rcases List.mem_cons.mp hq with h1 | h1
        · exact absurd (h1 ▸ hqf) hp
        · have := ih (execUpsert db p now) ⟨q, h1, hqf⟩
          obtain ⟨e, he⟩ := this
          refine ⟨e, ?_⟩
          rw [runStatements, if_neg hp, he]

/-- C6: `upsert_chunks` is atomic per batch — if any statement of the batch
fails, the call reports the error and the visible store is exactly the
pre-call store (zero rows of the batch are visible); if no statement fails,
the call reports `len(rows)` written and the store is the batch applied in
order. -/
theorem C6_upsert_atomicity (db : List Row) (rows : List Payload) (now : Nat)
    (fails : Payload → Bool) :
    (∀ e, (upsert_chunks db rows now fails).1 = Except.error e →
      (upsert_chunks db rows now fails).2 = db) ∧
    ((∃ p ∈ rows, fails p = true) →
      ∃ e, (upsert_chunks db rows now fails).1 = Except.error e) ∧
    ((∀ p ∈ rows, fails p = false) →
      (upsert_chunks db rows now fails).1 = Except.ok rows.length ∧
      (upsert_chunks db rows now fails).2 =
        rows.foldl (fun d p => execUpsert d p now) db) := by
  by_cases hemp : rows.isEmpty
  · have hrows : rows = [] := List.isEmpty_iff.mp hemp
    subst hrows
    refine ⟨?_, ?_, ?_⟩
    · intro e he
      rw [upsert_chunks] at he
      simp at he
    · intro h
      obtain ⟨p, hp, _⟩ := h
      cases hp
    · intro _
      rw [upsert_chunks]
      exact ⟨rfl, rfl⟩
  · refine ⟨?_, ?_, ?_⟩
    · intro e he
      rw [upsert_chunks, if_neg hemp] at he ⊢
      cases hrun : runStatements now fails db rows with
      | ok db2 => rw [hrun] at he; simp at he
      | error e2 => rfl
    · intro h
      obtain ⟨e, he⟩ := runStatements_err now fails rows db h
      refine ⟨e, ?_⟩
      rw [upsert_chunks, if_neg hemp, he]
    · intro hok
      rw [upsert_chunks, if_neg hemp, runStatements_ok now fails rows db hok]
      exact ⟨rfl, rfl⟩

/-- Witness for C6 at concrete inputs: a batch whose second statement fails
rolls back (store unchanged, error reported); the same batch with no
failure applies fully and reports its length. -/
theorem C6_witness :
    ((∃ p ∈ c6rows, (fun q : Payload => decide (q.chunk_id = "chunk-2")) p = true) ∧
     (∃ e, (upsert_chunks c5db c6rows 9
        (fun q => decide (q.chunk_id = "chunk-2"))).1 = Except.error e) ∧
     (upsert_chunks c5db c6rows 9 (fun q => decide (q.chunk_id = "chunk-2"))).2 = c5db) ∧
    ((∀ p ∈ c6rows, (fun _ : Payload => false) p = false) ∧
     (upsert_chunks c5db c6rows 9 (fun _ => false)).1 = Except.ok c6rows.length ∧
     (upsert_chunks c5db c6rows 9 (fun _ => false)).2 =
       c6rows.foldl (fun d p => execUpsert d p 9) c5db) := by
  constructor
  · have hex : ∃ p ∈ c6rows, (fun q : Payload => decide (q.chunk_id = "chunk-2")) p = true := by
      decide
    obtain ⟨e, he⟩ := (C6_upsert_atomicity c5db c6rows 9
      (fun q => decide (q.chunk_id = "chunk-2"))).2.1 hex
    exact ⟨hex, ⟨e, he⟩, (C6_upsert_atomicity c5db c6rows 9
      (fun q => decide (q.chunk_id = "chunk-2"))).1 e he⟩
  · have hall : ∀ p ∈ c6rows, (fun _ : Payload => false) p = false := by decide
    have h3 := (C6_upsert_atomicity c5db c6rows 9 (fun _ => false)).2.2 hall
    exact ⟨hall, h3.1, h3.2⟩

/-! ## Orchestrator theorems -/

/-- C9: with a non-empty hit list, whenever no generation chain is
configured (`none`) or invoking it fails, `_generate_answer` returns —
without raising, the model is total — the extractive fallback, a string
containing the question and the first (highest-fused-score) hit's
`chunk_id` and `content`. -/
theorem C9_extractive_fallback (chain : Option (String → String → Except String String))
    (q : String) (best : Hit) (rest : List Hit)
    (hfail : ∀ f t, chain = some f → f q (format_context (best :: rest)) ≠ Except.ok t) :
    generate_answer chain q (best :: rest) = fallback_answer (best :: rest) q ∧
    (∃ l r, (generate_answer chain q (best :: rest)).data = l ++ (q.data ++ r)) ∧
    (∃ l r, (generate_answer chain q (best :: rest)).data = l ++ (best.chunk_id.data ++ r)) ∧
    (∃ l r, (generate_answer chain q (best :: rest)).data = l ++ (best.content.data ++ r)) := by
  have hfb : generate_answer chain q (best :: rest) = fallback_answer (best :: rest) q := by
    cases chain with
    | none => rfl
    | some f =>
        cases hres : f q (format_context (best :: rest)) with
        | ok t => exact absurd hres (hfail f t rfl)
        | error e => simp [generate_answer, hres]
  refine ⟨hfb, ?_, ?_, ?_⟩
  · refine ⟨("Answer synthesized without LLM due to configuration limits.\n" ++
      "Question: ").data,
      ("\n" ++ "Best match (" ++ best.chunk_id ++ "): " ++ best.content).data, ?_⟩
    rw [hfb, fallback_answer]
    simp [String.data_append, List.append_assoc]
  · refine ⟨("Answer synthesized without LLM due to configuration limits.\n" ++
      "Question: " ++ q ++ "\n" ++ "Best match (").data,
      ("): " ++ best.content).data, ?_⟩
    rw [hfb, fallback_answer]
    simp [String.data_append, List.append_assoc]
  · refine ⟨("Answer synthesized without LLM due to configuration limits.\n" ++
      "Question: " ++ q ++ "\n" ++ "Best match (" ++ best.chunk_id ++ "): ").data, [], ?_⟩
    rw [hfb, fallback_answer]
    simp [String.data_append, List.append_assoc]

/-- Witness for C9 at a concrete input: no chain configured, one hit. -/
theorem C9_witness :
    (∀ (f : String → String → Except String String) (t : String),
       (none : Option (String → String → Except String String)) = some f →
       f "Q" (format_context
         [{ chunk_id := "c1", document_id := "d", content := "X", level := "paragraph",
            metadata := [], score := 0 }]) ≠ Except.ok t) ∧
    (generate_answer none "Q"
        [{ chunk_id := "c1", document_id := "d", content := "X", level := "paragraph",
           metadata := [], score := 0 }] =
      fallback_answer
        [{ chunk_id := "c1", document_id := "d", content := "X", level := "paragraph",
           metadata := [], score := 0 }] "Q" ∧
     (∃ l r, (generate_answer none "Q"
        [{ chunk_id := "c1", document_id := "d", content := "X", level := "paragraph",
           metadata := [], score := 0 }]).data = l ++ ("Q".data ++ r)) ∧
     (∃ l r, (generate_answer none "Q"
        [{ chunk_id := "c1", document_id := "d", content := "X", level := "paragraph",
           metadata := [], score := 0 }]).data = l ++ ("c1".data ++ r)) ∧
     (∃ l r, (generate_answer none "Q"
        [{ chunk_id := "c1", document_id := "d", content := "X", level := "paragraph",
           metadata := [], score := 0 }]).data = l ++ ("X".data ++ r))) :=
  ⟨fun f t h => Option.noConfusion h,
   C9_extractive_fallback none "Q"
     { chunk_id := "c1", document_id := "d", content := "X", level := "paragraph",
       metadata := [], score := 0 } []
     (fun f t h => Option.noConfusion h)⟩

/-! ## Tokenizer theorems -/

theorem dropWhile_eq_self_of {p : Char → Bool} :
    ∀ (l : List Char), (∀ c ∈ l, p c = false) → l.dropWhile p = l := by
  intro l h
  cases l with
  | nil => rfl
  | cons c0 rest =>
      rw [List.dropWhile_cons_of_neg]
      rw [h c0 (List.mem_cons_self c0 rest)]
      exact Bool.false_ne_true

theorem splitWsAux_tokens (cs : List Char) :
    ∀ (cur : List Char), (∀ c ∈ cur, c.isWhitespace = false) →
    ∀ t ∈ splitWsAux cs cur, t ≠ [] ∧ ∀ c ∈ t, c.isWhitespace = false := by
  induction cs with
  | nil =>
      intro cur hcur t ht
      rw [splitWsAux] at ht
      by_cases hc : cur.isEmpty
      · rw [if_pos hc] at ht
        cases ht
      · rw [if_neg hc] at ht
        rw [List.mem_singleton] at ht
        subst ht
        refine ⟨?_, ?_⟩
        · intro hrev
          apply hc
          rw [List.isEmpty_iff, ← List.reverse_eq_nil_iff]
          exact hrev
        · intro c hcm
          exact hcur c (List.mem_reverse.mp hcm)
  | cons c0 rest ih =>
      intro cur hcur t ht
      rw [splitWsAux] at ht
      by_cases hws : c0.isWhitespace
      · rw [if_pos hws] at ht
        by_cases hc : cur.isEmpty
        · rw [if_pos hc] at ht
          exact ih [] (by simp) t ht
        · rw [if_neg hc] at ht
          rcases List.mem_cons.mp ht with ht1 | ht2
          · subst ht1
            refine ⟨?_, ?_⟩
            · intro hrev
              apply hc
              rw [List.isEmpty_iff, ← List.reverse_eq_nil_iff]
              exact hrev
            · intro c hcm
              exact hcur c (List.mem_reverse.mp hcm)
          · exact ih [] (by simp) t ht2
      · rw [if_neg hws] at ht
        refine ih (c0 :: cur) ?_ t ht
        intro c hcm
        rcases List.mem_cons.mp hcm with hc1 | h
        · subst hc1
          simpa using hws
        · exact hcur c h

theorem pyStripList_eq_self (t : List Char) (h : ∀ c ∈ t, c.isWhitespace = false) :
    pyStripList t = t := by
  rw [pyStripList, dropWhile_eq_self_of t h, dropWhile_eq_self_of, List.reverse_reverse]
  intro c hc
  exact h c (List.mem_reverse.mp hc)

/-- C8: the token list persisted as `sparse_tokens` at ingestion and the
query tokens of the sparse retrieval branch are computed by the same
tokenizer (`EmbeddingService.tokenize` at both call sites), which splits the
text on whitespace and lower-cases every token (the `if token.strip()`
filter never drops anything: whitespace-split tokens are non-empty and
whitespace-free). -/
theorem C8_shared_tokenizer :
    (∀ c : Chunk, ingest_sparse_tokens c = sparse_query_tokens c.content) ∧
    (∀ text : String, EmbeddingService.tokenize text =
      (splitWsAux text.data []).map (fun t => String.mk (t.map Char.toLower))) := by
  refine ⟨fun c => rfl, ?_⟩
  intro text
  rw [EmbeddingService.tokenize]
  have hfilter : (splitWsAux text.data []).filter
      (fun t => pyStrip (String.mk t) ≠ "") = splitWsAux text.data [] := by
    rw [List.filter_eq_self]
    intro t ht
    obtain ⟨hne, hnws⟩ := splitWsAux_tokens text.data [] (by simp) t ht
    simp only [decide_eq_true_eq]
    intro hstrip
    apply hne
    have hdata : (pyStrip (String.mk t)).data = pyStripList t := rfl
    rw [pyStripList_eq_self t hnws] at hdata
    rw [hstrip] at hdata
    exact hdata.symm
  rw [hfilter]

/-! ## Fallback-embedding theorems -/

theorem bytesBE_length : ∀ (w x : Nat), (bytesBE w x).length = w := by
  intro w
  induction w with
  | zero => intro x; rfl
  | succ n ih => intro x; simp [bytesBE, ih]

theorem bytesBE_lt : ∀ (w x : Nat), ∀ b ∈ bytesBE w x, b < 256 := by
  intro w
  induction w with
  | zero => intro x b hb; cases hb
  | succ n ih =>
      intro x b hb
      rcases List.mem_cons.mp hb with h1 | h1
      · subst h1
        exact Nat.mod_lt _ (by omega)
      · exact ih x b h1

theorem compressBlock_length (hs block : List Nat) : (compressBlock hs block).length = 8 := rfl

theorem foldl_compressBlock_length :
    ∀ (bl : List (List Nat)) (hs : List Nat), hs.length = 8 →
      (bl.foldl compressBlock hs).length = 8 := by
  intro bl
  induction bl with
  | nil => intro hs h; exact h
  | cons b rest ih => intro hs _; exact ih (compressBlock hs b) rfl

theorem flatten_bytesBE_length :
    ∀ (l : List Nat), ((l.map (bytesBE 4)).flatten).length = 4 * l.length := by
  intro l
  induction l with
  | nil => rfl
  | cons a t ih =>
      simp only [List.map_cons, List.flatten_cons, List.length_append, bytesBE_length,
        List.length_cons, ih]
      omega

theorem sha256_length (msg : List Nat) : (sha256 msg).length = 32 := by
  rw [sha256, flatten_bytesBE_length,
    foldl_compressBlock_length (blocks64 (sha256Pad msg)) sha256H0 rfl]

theorem replicate_flatten_length {α : Type} (n : Nat) (l : List α) :
    ((List.replicate n l).flatten).length = n * l.length := by
  induction n with
  | zero => simp
  | succ m ih =>
      simp only [List.replicate_succ, List.flatten_cons, List.length_append, ih]
      ring

theorem fallback_embedding_spec (t : String) :
    fallback_embedding t 768 =
      ((List.replicate 25 (sha256 (utf8Bytes t))).flatten.take 768).map
        (fun b : Nat => (b : ℚ) / 255) := by
  simp only [fallback_embedding, sha256_length]

theorem fallback_embedding_length (t : String) : (fallback_embedding t 768).length = 768 := by
  rw [fallback_embedding_spec, List.length_map, List.length_take, replicate_flatten_length,
    sha256_length]
  omega

theorem fallback_embedding_head (t : String) (b : Nat) (rest : List Nat)
    (hd : sha256 (utf8Bytes t) = b :: rest) :
    (fallback_embedding t 768).head? = some ((b : ℚ) / 255) := by
  rw [fallback_embedding_spec, hd]
  rw [show (25 : Nat) = 24 + 1 from rfl, List.replicate_succ, List.flatten_cons,
    List.cons_append]
  rw [show (768 : Nat) = 767 + 1 from rfl, List.take_succ_cons]
  rw [List.map_cons, List.head?_cons]

theorem sha256_bytes_lt (msg : List Nat) : ∀ b ∈ sha256 msg, b < 256 := by
  intro b hb
  rw [sha256] at hb
  obtain ⟨l, hl, hbl⟩ := List.mem_flatten.mp hb
  obtain ⟨w, hw, hwl⟩ := List.mem_map.mp hl
  subst hwl
  exact bytesBE_lt 4 w b hbl

theorem fallback_embedding_bounds (t : String) :
    ∀ x ∈ fallback_embedding t 768, 0 ≤ x ∧ x ≤ 1 := by
  intro x hx
  rw [fallback_embedding_spec] at hx
  obtain ⟨b, hb, hbx⟩ := List.mem_map.mp hx
  have hb2 := List.mem_of_mem_take hb
  obtain ⟨l, hl, hbl⟩ := List.mem_flatten.mp hb2
  have hld : l = sha256 (utf8Bytes t) := List.eq_of_mem_replicate hl
  subst hld
  have hlt : b < 256 := sha256_bytes_lt _ b hbl
  subst hbx
  constructor
  · positivity
  · rw [div_le_one (by norm_num : (0:ℚ) < 255)]
    exact_mod_cast Nat.lt_succ_iff.mp hlt

set_option maxRecDepth 100000 in
/-- C7: on the fallback path (no model loaded), `embed` maps each text to
the 768-dimensional vector obtained by repeating the SHA-256 digest of the
UTF-8 text `768 / 32 + 1 = 25` times, truncating to 768 bytes, and mapping
each byte `b` to `b / 255` (so bytes land linearly in `[0, 1]`); the map is
a pure function of the text — two calls agree — and distinct texts exist
(`"abc"`, `"abcd"`) whose fallback vectors differ. -/
theorem C7_fallback_embedding_hash :
    (∀ texts : List String,
       embedFallback texts = texts.map (fun t => fallback_embedding t 768)) ∧
    (∀ t : String, fallback_embedding t 768 =
       ((List.replicate 25 (sha256 (utf8Bytes t))).flatten.take 768).map
         (fun b : Nat => (b : ℚ) / 255)) ∧
    (∀ t : String, (fallback_embedding t 768).length = 768) ∧
    (∀ t : String, ∀ x ∈ fallback_embedding t 768, 0 ≤ x ∧ x ≤ 1) ∧
    (∀ t : String, embedFallback [t] = embedFallback [t]) ∧
    ("abc" ≠ "abcd" ∧ fallback_embedding "abc" 768 ≠ fallback_embedding "abcd" 768) := by
  refine ⟨fun _ => rfl, fallback_embedding_spec, fallback_embedding_length,
    fallback_embedding_bounds, fun _ => rfl, by decide, ?_⟩
  intro heq
  have h1 : sha256 (utf8Bytes "abc") =
      186 :: [120, 22, 191, 143, 1, 207, 234, 65, 65, 64, 222, 93, 174, 34, 35, 176, 3,
        97, 163, 150, 23, 122, 156, 180, 16, 255, 97, 242, 0, 21, 173] := by decide
  have h2 : sha256 (utf8Bytes "abcd") =
      136 :: [212, 38, 111, 212, 230, 51, 141, 19, 184, 69, 252, 242, 137, 87, 157, 32,
        156, 137, 120, 35, 185, 33, 125, 163, 225, 97, 147, 111, 3, 21, 137] := by decide
  have hh1 := fallback_embedding_head "abc" 186 _ h1
  have hh2 := fallback_embedding_head "abcd" 136 _ h2
  rw [heq, hh2] at hh1
  have hq : (136 : ℚ) / 255 = 186 / 255 := Option.some.inj hh1
  norm_num at hq
